import Mathlib

/-!
Verification of the boludo-translator core against its specification.

The Python sources are shallowly embedded over `Str := List Nat`
(a Python `str` is a sequence of Unicode code points).  Character-class
predicates (`\s`, `\d`, `\w`, `str.isspace`, line boundaries) are exact on
the ASCII range and on the full enumerable whitespace / line-boundary sets
of CPython; the regular expressions appearing in the sources are embedded
as explicit backtracking matchers with Python's preference order
(leftmost position, alternation in written order, greedy/lazy
quantifiers), and `re.sub` as the standard leftmost non-overlapping scan.
-/

set_option maxRecDepth 100000

namespace Boludo

/-- A Python string: a list of Unicode code points. -/
abbrev Str := List Nat

/-- Code points of a Lean string literal, used to write embedded Python
string constants readably. -/
def str (s : String) : Str := s.data.map Char.toNat

/-- CPython's whitespace set (`str.isspace`, `str.strip`, `str.split`,
and `re` `\s` for text patterns all use `Py_UNICODE_ISSPACE`). -/
def pyIsSpace (c : Nat) : Bool :=
  (9 ≤ c && c ≤ 13) || (28 ≤ c && c ≤ 32) || c == 133 || c == 160 ||
  c == 5760 || (8192 ≤ c && c ≤ 8202) || c == 8232 || c == 8233 ||
  c == 8239 || c == 8287 || c == 12288

/-- CPython's `str.splitlines` line-boundary set. -/
def isLB (c : Nat) : Bool :=
  (10 ≤ c && c ≤ 13) || (28 ≤ c && c ≤ 30) || c == 133 || c == 8232 || c == 8233

/-- Model of `re` `\d` (exact on ASCII; the sources only meet ASCII digits). -/
def pyIsDigit (c : Nat) : Bool := 48 ≤ c && c ≤ 57

/-- Model of `re` `\w`, used for `\b` word boundaries (exact on ASCII). -/
def pyIsWord (c : Nat) : Bool :=
  (48 ≤ c && c ≤ 57) || (65 ≤ c && c ≤ 90) || (97 ≤ c && c ≤ 122) || c == 95

/-- ASCII lowering, modelling `str.lower` on the code points the
detection pipeline can produce. -/
def pyLowerAscii (s : Str) : Str :=
  s.map (fun c => if 65 ≤ c ∧ c ≤ 90 then c + 32 else c)

/-- Python `str.rstrip()` (structural version, recursing from the left). -/
def rstripSp : Str → Str
  | [] => []
  | c :: rest =>
    let r := rstripSp rest
    if r.isEmpty && pyIsSpace c then [] else c :: r

/-- Python `str.strip()`. -/
def pyStrip (s : Str) : Str := rstripSp (s.dropWhile pyIsSpace)

/-- Word counting as `len(text.split())`: number of maximal runs of
non-whitespace characters. -/
def wcAux : Bool → Str → Nat
  | _, [] => 0
  | inWord, c :: rest =>
    let nw := !pyIsSpace c
    (if nw && !inWord then 1 else 0) + wcAux nw rest

/-- `len(text.split())`. -/
def wordCount (s : Str) : Nat := wcAux false s

/-! ### A small regex engine

The abstract syntax covers exactly the constructs appearing in the
repository's patterns: literal characters (case-sensitive or not),
single-character classes, concatenation, alternation, greedy `(?:...)?`,
greedy `*`/`+` over a character class, and lazy `*?` over a character
class (which is how `.*?` under `re.DOTALL` is used).  `RE.mlens` lists
the possible match lengths at the start of a string in the engine's
backtracking preference order, so its head is the length Python's
backtracking matcher commits to at that position. -/

inductive RE where
  | eps : RE
  | cls (p : Nat → Bool) : RE
  | seq (a b : RE) : RE
  | alt (a b : RE) : RE
  | opt (a : RE) : RE
  | starG (p : Nat → Bool) : RE
  | starL (p : Nat → Bool) : RE
  | plusG (p : Nat → Bool) : RE

/-- Length of the maximal run of `p`-characters at the head. -/
def runLen (p : Nat → Bool) : Str → Nat
  | [] => 0
  | c :: rest => if p c then runLen p rest + 1 else 0

/-- Candidate match lengths at the start of `s`, in backtracking
preference order (head = what Python's engine commits to). -/
def RE.mlens : RE → Str → List Nat
  | .eps, _ => [0]
  | .cls _, [] => []
  | .cls p, c :: _ => if p c then [1] else []
  | .seq a b, s =>
    (a.mlens s).flatMap (fun la => (b.mlens (s.drop la)).map (fun lb => la + lb))
  | .alt a b, s => a.mlens s ++ b.mlens s
  | .opt a, s => a.mlens s ++ [0]
  | .starG p, s => (List.range (runLen p s + 1)).reverse
  | .starL p, s => List.range (runLen p s + 1)
  | .plusG p, s => ((List.range (runLen p s)).reverse).map (· + 1)

/-- One segment of a `re.sub` scan: an untouched character, or a matched
span (recorded with its original text) that gets replaced. -/
inductive Piece where
  | lit (c : Nat) : Piece
  | rep (orig : Str) : Piece

/-- The original text a piece stands for. -/
def Piece.origOf : Piece → Str
  | .lit c => [c]
  | .rep o => o

/-- The text a piece renders to after substitution. -/
def Piece.render (repl : Str) : Piece → Str
  | .lit c => [c]
  | .rep _ => repl

/-- Is this piece a replaced span? -/
def Piece.isRep : Piece → Bool
  | .lit _ => false
  | .rep _ => true

def joinPieces (f : Piece → Str) (ps : List Piece) : Str := ps.flatMap f

/-- The `re.sub` left-to-right scan, producing the piece decomposition.
`k` is the number of characters still to be skipped inside an already
emitted match span; `prevW` tracks whether the previous character is a
word character (for leading `\b` when `needB` is set: all the patterns
that carry `\b` start with a word character, so the boundary condition
is that the previous character is not a word character). -/
def subGo (r : RE) (needB : Bool) : Nat → Bool → Str → List Piece
  | _ + 1, _, [] => []
  | k + 1, _, c :: rest => subGo r needB k (pyIsWord c) rest
  | 0, _, [] => []
  | 0, prevW, c :: rest =>
    match (if !needB || !prevW then ((r.mlens (c :: rest)).head?) else none) with
    | some (l + 1) =>
      Piece.rep ((c :: rest).take (l + 1)) :: subGo r needB l (pyIsWord c) rest
    | _ => Piece.lit c :: subGo r needB 0 (pyIsWord c) rest

/-- Piece decomposition of a full `re.sub` pass over `s`. -/
def subPieces (r : RE) (needB : Bool) (s : Str) : List Piece :=
  subGo r needB 0 false s

/-- `re.sub(pattern, repl, s)` for the repository's patterns (none of
which can match the empty string). -/
def pySub (r : RE) (needB : Bool) (repl : Str) (s : Str) : Str :=
  joinPieces (Piece.render repl) (subPieces r needB s)

/-- Does the pattern match starting at some position of `s`
(respecting a leading word boundary when `needB`)? -/
def hasMatchGo (r : RE) (needB : Bool) : Bool → Str → Bool
  | _, [] => false
  | w, c :: rest =>
    ((!needB || !w) && !((r.mlens (c :: rest)).isEmpty)) || hasMatchGo r needB (pyIsWord c) rest

/-- `re.search` would succeed on `s`. -/
def hasMatch (r : RE) (needB : Bool) (s : Str) : Bool :=
  hasMatchGo r needB false s

/-! ### Pattern combinators -/

/-- Concatenation of a pattern list. -/
def rcat (l : List RE) : RE := l.foldr RE.seq RE.eps

/-- A case-sensitive literal character. -/
def chOf (n : Nat) : RE := .cls (fun c => c == n)

/-- A case-insensitive literal character (`re.IGNORECASE`, ASCII-exact). -/
def ciChar (ch : Char) : RE :=
  .cls (fun c => c == ch.toLower.toNat || c == ch.toUpper.toNat)

/-- A case-insensitive literal string. -/
def litCI (s : String) : RE := rcat (s.data.map ciChar)

/-- A case-sensitive literal string. -/
def litCS (s : String) : RE := rcat (s.data.map (fun ch => chOf ch.toNat))

/-- Regex `\s*`. -/
def reSp0 : RE := .starG pyIsSpace

/-- Regex `\s+`. -/
def reSp1 : RE := .plusG pyIsSpace

/-- Regex `.*?` under `re.DOTALL`. -/
def reAnyL : RE := .starL (fun _ => true)

/-- Regex `\d+`. -/
def reDigits : RE := .plusG pyIsDigit

/-- Regex `\d{4}`. -/
def reD4 : RE := rcat [.cls pyIsDigit, .cls pyIsDigit, .cls pyIsDigit, .cls pyIsDigit]

/-- Regex `\(\d+\)`. -/
def reParenNum : RE := rcat [chOf 40, reDigits, chOf 41]

/-! ### The Malvinas content-policy filter
(`ArgentinianTranslator._preprocess_malvinas_statements`) -/

/-- Regex `(?:is|are|belongs?(?:\s+to)?)`, alternatives in written order. -/
def reVerb : RE :=
  .alt (litCI "is")
    (.alt (litCI "are")
      (rcat [litCI "belong", .opt (ciChar 's'), .opt (rcat [reSp1, litCI "to"])]))

/-- Regex `(?:British|English|UK|Britain)`, alternatives in written order. -/
def reNation : RE :=
  .alt (litCI "British") (.alt (litCI "English") (.alt (litCI "UK") (litCI "Britain")))

/-- Pattern 1:
`\b(?:the\s+)?Falklands?\s+(?:islands?\s+)?(?:is|are|belongs?(?:\s+to)?)\s+(?:British|English|UK|Britain)`. -/
def malvP1 : RE :=
  rcat [.opt (rcat [litCI "the", reSp1]),
        litCI "Falkland", .opt (ciChar 's'), reSp1,
        .opt (rcat [litCI "island", .opt (ciChar 's'), reSp1]),
        reVerb, reSp1, reNation]

/-- Pattern 2:
`\b(?:the\s+)?Malvinas\s+(?:islands?\s+)?(?:is|are|belongs?(?:\s+to)?)\s+(?:British|English|UK|Britain)`. -/
def malvP2 : RE :=
  rcat [.opt (rcat [litCI "the", reSp1]),
        litCI "Malvinas", reSp1,
        .opt (rcat [litCI "island", .opt (ciChar 's'), reSp1]),
        reVerb, reSp1, reNation]

/-- Pattern 3: `\b(?:British|English|UK|Britain)(?:\'s)?\s+(?:Falklands?|Malvinas)`
(code point 39 is the apostrophe). -/
def malvP3 : RE :=
  rcat [reNation, .opt (rcat [chOf 39, ciChar 's']), reSp1,
        .alt (rcat [litCI "Falkland", .opt (ciChar 's')]) (litCI "Malvinas")]

/-- The canonical counter-statement: `replacements[0]`, which
`replace_match` always returns. -/
def canonMalvinas : Str := str "Las Malvinas son argentinas"

/-- `ArgentinianTranslator._preprocess_malvinas_statements`: three
sequential `re.sub` passes (each pattern carries a leading `\b` and the
`re.IGNORECASE` flag), every match replaced by `replacements[0]`. -/
def preprocessMalvinas (text : Str) : Str :=
  pySub malvP3 true canonMalvinas
    (pySub malvP2 true canonMalvinas
      (pySub malvP1 true canonMalvinas text))

/-! ### Text cleaning (`core/text_utils.py` and
`core/ventureout_loader.py` — the two modules carry the same
`PATTERNS_TO_REMOVE` table and the same pipeline) -/

/-- `re.sub` patterns of `PATTERNS_TO_REMOVE`, compiled with
`re.DOTALL | re.IGNORECASE`, in source order. -/
def patternsToRemove : List RE :=
  [rcat [litCI "Leave a Reply", reSp0, litCI "Cancel reply", reAnyL,
         litCI "for the next time I comment."],
   rcat [litCI "Comment", reSp0, litCI "Enter your name", reAnyL,
         litCI "for the next time I comment."],
   rcat [litCI "Enter your name or username to comment", reAnyL,
         litCI "for the next time I comment."],
   rcat [litCI "Copyright © ", reD4, reAnyL, litCI "All rights reserved", .opt (ciChar '.')],
   rcat [litCI "Post author:", reSp0, reAnyL, reSp0, litCI "Post published:", reSp0,
         reAnyL, reSp0, litCI "Reading time:", reSp0, reAnyL, reSp0],
   rcat [litCI "Thank you for sharing this post!", reSp0, litCI "Share this content",
         reSp0, litCI "Opens in a new window", reSp0],
   rcat [litCI "Previous Post", reAnyL, litCI "Next Post"],
   rcat [litCI "Share this:", reAnyL, litCI "Click to share"],
   rcat [litCI "Share this content", reAnyL, litCI "Opens in a new window"],
   rcat [litCI "Search for:", reAnyL, litCI "search"],
   rcat [litCI "Categories", reAnyL, reParenNum, reAnyL, litCI "Spanish Teaching",
         reAnyL, reParenNum],
   rcat [reParenNum, reSp0, litCI "Argentinian Spanish", reSp0, reParenNum, reSp0,
         litCI "Argentinian Spanish Curse Words", reSp0, reParenNum],
   rcat [litCI "Venture Out Spanish", reSp0, litCI "·", reSp0,
         .plusG (fun c => !pyIsSpace c), reSp0, .plusG (fun c => !pyIsSpace c),
         reSp0, litCI "·", reSp0, litCI "Privacy Policy"],
   rcat [litCI "About the author", reAnyL, litCI "View all posts"],
   rcat [litCI "Comments", reSp0, reParenNum],
   rcat [litCI "Filed under:", reAnyL, litCI "Tags:"],
   rcat [litCI "Post author:", reAnyL, litCI "Reading time:", reAnyL, litCI "read"],
   rcat [litCI "Opens in a new window", reSp0, litCI "Opens in a new window", reSp0,
         litCI "Opens in a new window"]]

/-- The `SPLIT_POINTS` list (matched case-sensitively via Python `in`). -/
def splitPoints : List Str :=
  [str "Leave a Reply", str "Related Posts", str "Categories",
   str "Thank you for sharing this post", str "Post navigation"]

/-- `text.split(pat)[0]`: everything before the first occurrence of `pat`. -/
def takeUntilSub (pat : Str) : Str → Str
  | [] => []
  | c :: rest =>
    if pat.isPrefixOf (c :: rest) then [] else c :: takeUntilSub pat rest

/-- `re.match(r"^\s*\(\d+\)\s*$", line)` on a line (lines produced by
`splitlines` contain no newline, so the `$` subtlety does not arise):
skip leading whitespace, then `(` (code 40), one or more digits, `)`
(code 41), then only whitespace to the end. -/
def catMatch (l : Str) : Bool :=
  match l.dropWhile pyIsSpace with
  | [] => false
  | c0 :: r =>
    (c0 == 40) && !(r.takeWhile pyIsDigit).isEmpty &&
      (match r.dropWhile pyIsDigit with
       | [] => false
       | c1 :: r3 => (c1 == 41) && (r3.dropWhile pyIsSpace).isEmpty)

/-- Python `in` for strings: `pat` occurs as a contiguous substring. -/
def containsSub (pat : Str) : Str → Bool
  | [] => pat.isEmpty
  | c :: rest => pat.isPrefixOf (c :: rest) || containsSub pat rest

/-- `str.splitlines()` (CRLF counts as a single boundary). -/
def pySplitlines : Str → List Str
  | [] => []
  | 13 :: 10 :: rest => [] :: pySplitlines rest
  | c :: rest =>
    if isLB c then [] :: pySplitlines rest
    else
      match pySplitlines rest with
      | [] => [[c]]
      | l :: ls => (c :: l) :: ls

/-- Join with `"\n"` (`"\n".join(...)`). -/
def joinNL : List Str → Str
  | [] => []
  | [l] => l
  | l :: ls => l ++ 10 :: joinNL ls

/-- No line of `s` is a category-count line. -/
def linesOK (s : Str) : Bool := (pySplitlines s).all (fun l => !catMatch l)

/-- No carriage-return/newline pair. -/
def noCRLF : Str → Bool
  | 13 :: 10 :: _ => false
  | _ :: rest => noCRLF rest
  | [] => true

/-- A character class is insensitive to rewriting line boundaries to
`"\n"` when it gives every line-boundary character the same verdict as
`"\n"`. -/
def clsOKB (p : Nat → Bool) : Bool :=
  (p 11 == p 10) && (p 12 == p 10) && (p 13 == p 10) && (p 28 == p 10) &&
  (p 29 == p 10) && (p 30 == p 10) && (p 133 == p 10) && (p 8232 == p 10) &&
  (p 8233 == p 10)

/-- All character classes of the pattern are line-boundary insensitive. -/
def RE.goodB : RE → Bool
  | .eps => true
  | .cls p => clsOKB p
  | .seq a b => a.goodB && b.goodB
  | .alt a b => a.goodB && b.goodB
  | .opt a => a.goodB
  | .starG p => clsOKB p
  | .starL p => clsOKB p
  | .plusG p => clsOKB p

/-- The category-listing filter loop of `clean_text` /
`clean_ventureout_text`, with its `skip_mode` state. -/
def catFilterGo : List Str → Bool → List Str
  | [], _ => []
  | line :: rest, skip =>
    let skip1 := skip || catMatch line
    let skip2 := if skip1 && (pyStrip line).length > 30 then false else skip1
    (if skip1 then [] else [line]) ++ catFilterGo rest skip2

/-- Stage 1: remove the `PATTERNS_TO_REMOVE` patterns, in order. -/
def removeStage (s : Str) : Str :=
  patternsToRemove.foldl (fun t p => pySub p false [] t) s

/-- Stage 2: truncate at each split point present in the text. -/
def splitStage (s : Str) : Str :=
  splitPoints.foldl (fun t pt => if containsSub pt t then takeUntilSub pt t else t) s

/-- Stage 3: drop category-listing lines and rejoin with `"\n"`. -/
def catStage (s : Str) : Str :=
  joinNL (catFilterGo (pySplitlines s) false)

/-- Regex `\n{3,}` (no flags: case-sensitive, `.` unused). -/
def reNL3 : RE := rcat [chOf 10, chOf 10, .plusG (fun c => c == 10)]

/-- Regex `\s{2,}`. -/
def reSP2 : RE := rcat [.cls pyIsSpace, .plusG pyIsSpace]

/-- Regex `https?://\S+` (no flags: case-sensitive). -/
def reURL : RE :=
  rcat [litCS "http", .opt (chOf 115), litCS "://", .plusG (fun c => !pyIsSpace c)]

/-- Stage 4: collapse 3+ newlines to two, then 2+ whitespace to one space. -/
def wsStage (s : Str) : Str :=
  pySub reSP2 false [32] (pySub reNL3 false [10, 10] s)

/-- Stage 5: strip URLs. -/
def urlStage (s : Str) : Str := pySub reURL false [] s

/-- The sentinel returned for too-short content. -/
def sentinel : Str := str "No usable content found."

/-- `core/text_utils.clean_text` (the minimum-length check runs after
stage 3 and before stages 4-5). -/
def clean_text (text : Str) (minLen : Nat) : Str :=
  if text.isEmpty then []
  else if (catStage (splitStage (removeStage text))).isEmpty ||
          (pyStrip (catStage (splitStage (removeStage text)))).length < minLen then
    sentinel
  else pyStrip (urlStage (wsStage (catStage (splitStage (removeStage text)))))

/-- `core/ventureout_loader.clean_ventureout_text` (same pipeline, but no
empty-input early return and no minimum-length check). -/
def clean_ventureout_text (text : Str) : Str :=
  pyStrip (urlStage (wsStage (catStage (splitStage (removeStage text)))))

/-! ### The translation orchestrator
(`services/translation_service.py` and `core/translator.py`)

The external collaborators (the `langdetect` statistical classifier, the
LLM detection chain, the vector-store retriever and the generative
model) are modelled as oracles; `.error` is a raised exception.  The
observable calls of one request are recorded as an event trace. -/

inductive Ev where
  | detectLLM : Ev
  | detectStat : Ev
  | policyFilter : Ev
  | retrieveEv : Ev
  | generateEv : Ev
deriving DecidableEq, Repr

/-- The error taxonomy surfaced by `translate_text`
(`TranslationError` is re-raised; anything else becomes `AppError`). -/
inductive AppErr where
  | translationFailed : AppErr
  | unexpected : AppErr
deriving DecidableEq, Repr

structure Oracle where
  llmDetectRaw : Str → Except Unit Str
  statDetectRaw : Str → Except Unit Str
  retrieveDocs : Str → Except Unit (List Str)
  generateOut : Str → Str → Except Unit Str

/-- The string `"unknown"` (`UNKNOWN_LANG_CODE`). -/
def unknownStr : Str := str "unknown"

/-- `re.match(r"^[a-z]{2}$", s)`: two lowercase ASCII letters, with
Python's `$` also accepting one trailing newline. -/
def isoMatch (s : Str) : Bool :=
  match s with
  | [a, b] => (97 ≤ a && a ≤ 122) && (97 ≤ b && b ≤ 122)
  | [a, b, c] => (c == 10) && (97 ≤ a && a ≤ 122) && (97 ≤ b && b ≤ 122)
  | _ => false

/-- `TranslationService._detect_language_statistical`: every exception
degrades to `"unknown"`; an ISO-shaped result is lowercased and returned. -/
def detectStat (o : Oracle) (text : Str) : Str :=
  match o.statDetectRaw text with
  | .error _ => unknownStr
  | .ok d => if isoMatch d then pyLowerAscii d else unknownStr

/-- `TranslationService._detect_language_llm`: the raw chain output is
stripped and lowercased, then accepted if it is `"unknown"` or
ISO-shaped; anything else (including an exception) degrades to
`"unknown"`. -/
def detectLLM (o : Oracle) (text : Str) : Str :=
  match o.llmDetectRaw text with
  | .error _ => unknownStr
  | .ok raw =>
    let d := pyLowerAscii (pyStrip raw)
    if d == unknownStr || isoMatch d then d else unknownStr

/-- `TranslationService._detect_language`: hybrid routing on
`len(text.split()) <= settings.SHORT_INPUT_WORD_THRESHOLD`. -/
def detectHybrid (o : Oracle) (threshold : Nat) (text : Str) : Str × List Ev :=
  if wordCount text ≤ threshold then (detectLLM o text, [Ev.detectLLM])
  else (detectStat o text, [Ev.detectStat])

/-- `ArgentinianTranslator._format_retrieved_docs`. -/
def formatDocs (docs : List Str) : Str :=
  if docs.isEmpty then str "No specific Argentinian expressions found as reference."
  else joinNL2 (docs.map pyStrip)
where
  /-- Join with the visible separator `"\n---\n"`. -/
  joinNL2 : List Str → Str
    | [] => []
    | [l] => l
    | l :: ls => l ++ str ("\n---\n") ++ joinNL2 ls

/-- `ArgentinianTranslator.translate` plus the RAG chain it invokes:
empty input returns `""`; otherwise the chain preprocesses the text with
the Malvinas filter, retrieves with the filtered text, formats the
retrieved documents, and generates; any chain exception is wrapped in a
`TranslationError`. -/
def translateCore (o : Oracle) (inputText : Str) : Except AppErr Str × List Ev :=
  if inputText.isEmpty then (.ok [], [])
  else
    match o.retrieveDocs (preprocessMalvinas inputText) with
    | .error _ => (.error .translationFailed, [Ev.policyFilter, Ev.retrieveEv])
    | .ok docs =>
      match o.generateOut (formatDocs docs) (preprocessMalvinas inputText) with
      | .error _ =>
        (.error .translationFailed, [Ev.policyFilter, Ev.retrieveEv, Ev.generateEv])
      | .ok out => (.ok out, [Ev.policyFilter, Ev.retrieveEv, Ev.generateEv])

/-- `SUPPORTED_LANGS`. -/
def SUPPORTED : List Str := [str "en", str "es"]

/-- The f-string
`"Sorry, I currently only support English ('en') and Spanish ('es'). Detected: {detected_lang}"`
(code point 39 is the apostrophe). -/
def unsupportedMsg (lang : Str) : Str :=
  str "Sorry, I currently only support English (" ++ [39] ++ str "en" ++ [39] ++
  str ") and Spanish (" ++ [39] ++ str "es" ++ [39] ++ str "). Detected: " ++ lang

/-- The empty-input placeholder result. -/
def emptyInputMsg : Str := str "Please provide some text to translate."

/-- `TranslationService.translate_text`: empty/whitespace-only input
short-circuits; then hybrid detection; then the supported-language
check; then the core translation. -/
def translate_text (o : Oracle) (threshold : Nat) (text : Str) :
    Except AppErr Str × List Ev :=
  if (pyStrip text).isEmpty then (.ok emptyInputMsg, [])
  else if !(SUPPORTED.contains (detectHybrid o threshold text).1) &&
          !((detectHybrid o threshold text).1 == unknownStr) then
    (.ok (unsupportedMsg (detectHybrid o threshold text).1),
     (detectHybrid o threshold text).2)
  else
    ((translateCore o text).1,
     (detectHybrid o threshold text).2 ++ (translateCore o text).2)

/-! ### The VentureOut JSONL loader (`core/ventureout_loader.py`)

The JSON parser and the filesystem are external: a batch is a list of
raw lines each carrying the outcome of `json.loads` (`.error` models a
`JSONDecodeError`), and the whole file read is an `Except` (`.error`
models `FileNotFoundError`/other I/O failures, which the source converts
to `DataLoaderError`). -/

structure VOObj where
  textField : Option Str
  url : Str
  title : Str

structure VORecord where
  raw : Str
  parsed : Except Unit VOObj

structure VODoc where
  url : Str
  title : Str
  cleanedText : Str
deriving DecidableEq

/-- Processing of one JSONL line inside the loader loop: blank lines are
skipped; parse failures and missing `"text"` keys are skipped; cleaned
content shorter than 100 characters is skipped; otherwise a document is
produced. -/
def processRecord (r : VORecord) : Option VODoc :=
  if (pyStrip r.raw).isEmpty then none
  else
    match r.parsed with
    | .error _ => none
    | .ok obj =>
      match obj.textField with
      | none => none
      | some t =>
        if (clean_ventureout_text t).length < 100 then none
        else some ⟨obj.url, obj.title, clean_ventureout_text t⟩

/-- `load_ventureout_data`: a `DataLoaderError` is raised only when the
file itself cannot be read; otherwise the per-line survivors are
returned (possibly the empty list). -/
def load_ventureout_data (file : Except Unit (List VORecord)) :
    Except Unit (List VODoc) :=
  match file with
  | .error _ => .error ()
  | .ok lines => .ok (lines.filterMap processRecord)

/-! ### Auxiliary definitions used by the theorem statements -/

/-- A concrete environment where both classifiers answer a fixed code
and retrieval/generation succeed. -/
def mkOracle (llm stat : Str) : Oracle :=
  { llmDetectRaw := fun _ => .ok llm
    statDetectRaw := fun _ => .ok stat
    retrieveDocs := fun _ => .ok [str "Original: money Argentinian: guita"]
    generateOut := fun _ _ => .ok (str "necesito guita") }

/-- An environment whose classifiers reliably detect French. -/
def oracleFr : Oracle := mkOracle (str "fr") (str "fr")

/-- An environment whose statistical classifier emits a malformed
newline-terminated code. -/
def oracleNl : Oracle := mkOracle (str "en") (str "en" ++ [10])

/-- The detection event the hybrid router emits for a given input. -/
def detEv (threshold : Nat) (text : Str) : Ev :=
  if wordCount text ≤ threshold then Ev.detectLLM else Ev.detectStat

/-- Is `s` exactly two lowercase ASCII letters? -/
def isLowerPair (s : Str) : Bool :=
  match s with
  | [a, b] => (97 ≤ a && a ≤ 122) && (97 ≤ b && b ≤ 122)
  | _ => false

/-- A readable JSONL batch in which every record fails: a malformed
line, a record whose cleaned text is below 100 characters, and a record
missing its `"text"` key. -/
def badBatch : List VORecord :=
  [⟨str "not json", .error ()⟩,
   ⟨str "short", .ok ⟨some (str "tiny"), str "u1", str "t1"⟩⟩,
   ⟨str "nokey", .ok ⟨none, str "u2", str "t2"⟩⟩]

/-- Input on which two sovereignty patterns overlap: pattern 3 matches
`"British Falklands"` at position 0, pattern 1 matches
`"Falklands are British"` at position 8. -/
def overlapInput : Str := str "British Falklands are British"

/-- Marker-free input (no removal-pattern match, no split-point
substring, no category-count line) on which `clean_text` is not
idempotent: collapsing the double space creates the split-point marker
`"Leave a Reply"`. -/
def nonIdemInput : Str := str "aaaaaaaaaaaaaaaaaaaa Leave a  Reply"

/-- No boilerplate markers: no `PATTERNS_TO_REMOVE` match, no
`SPLIT_POINTS` substring, no category-count line. -/
def markerFree (s : Str) : Bool :=
  patternsToRemove.all (fun p => !hasMatch p false s) &&
  splitPoints.all (fun pt => !containsSub pt s) &&
  linesOK s

/-- No two adjacent whitespace characters. -/
def noDblWs : Str → Bool
  | [] => true
  | [_] => true
  | a :: b :: rest => !(pyIsSpace a && pyIsSpace b) && noDblWs (b :: rest)

/-- Line-boundary characters rewritten to `"\n"` (the net effect of
`"\n".join(text.splitlines())` on boundary characters). -/
def mapBf (c : Nat) : Nat := if isLB c then 10 else c

/-- Drop one trailing line-boundary character, if any. -/
def stripTrailB : Str → Str
  | [] => []
  | [c] => if isLB c then [] else [c]
  | c :: rest => c :: stripTrailB rest

/-! ## Theorems -/

/-- C6: Given empty or whitespace-only input, the orchestrator
short-circuits immediately: it returns the successful placeholder result
with an empty event trace (no policy filtering, no language detection,
no retrieval, no generation) and raises no error; the core translator
likewise returns `""` for empty input without invoking anything. -/
theorem C6_empty_input_short_circuit (o : Oracle) (threshold : Nat) (text : Str)
    (h : (pyStrip text).isEmpty = true) :
    translate_text o threshold text = (.ok emptyInputMsg, []) ∧
    translateCore o [] = (.ok [], []) := by
  constructor
  · simp [translate_text, h]
  · rfl

/-- Witness for C6 at the whitespace-only input `" \t "`. -/
theorem C6_witness :
    translate_text oracleFr 2 (str " \t ") = (.ok emptyInputMsg, []) ∧
    translateCore oracleFr [] = (.ok [], []) :=
  C6_empty_input_short_circuit oracleFr 2 (str " \t ") (by decide)

/-- C7: the hybrid router sends every input whose whitespace word count
is at most the configured threshold to the LLM detector and every
longer input to the statistical detector. -/
theorem C7_hybrid_threshold_routing (o : Oracle) (threshold : Nat) (text : Str) :
    (wordCount text ≤ threshold →
      detectHybrid o threshold text = (detectLLM o text, [Ev.detectLLM])) ∧
    (threshold < wordCount text →
      detectHybrid o threshold text = (detectStat o text, [Ev.detectStat])) := by
  constructor
  · intro h
    simp [detectHybrid, h]
  · intro h
    simp [detectHybrid, Nat.not_le_of_lt h]

/-- Witness for C7 at the default threshold `T = 2`: a 2-word input goes
to the LLM path, a 3-word input to the statistical path. -/
theorem C7_witness :
    wordCount (str "hola che") = 2 ∧
    detectHybrid oracleFr 2 (str "hola che") =
      (detectLLM oracleFr (str "hola che"), [Ev.detectLLM]) ∧
    wordCount (str "hola che boludo") = 3 ∧
    detectHybrid oracleFr 2 (str "hola che boludo") =
      (detectStat oracleFr (str "hola che boludo"), [Ev.detectStat]) :=
  ⟨by decide,
   (C7_hybrid_threshold_routing oracleFr 2 (str "hola che")).1 (by decide),
   by decide,
   (C7_hybrid_threshold_routing oracleFr 2 (str "hola che boludo")).2 (by decide)⟩

/-- C5: when the detected language is neither `"unknown"` nor in the
supported set, `translate_text` returns the user-facing
unsupported-language message as a successful result, and neither the
retrieval nor the generative call is invoked. -/
theorem C5_unsupported_language_short_circuit (o : Oracle) (threshold : Nat)
    (text : Str) (h0 : (pyStrip text).isEmpty = false)
    (h1 : SUPPORTED.contains (detectHybrid o threshold text).1 = false)
    (h2 : ((detectHybrid o threshold text).1 == unknownStr) = false) :
    translate_text o threshold text =
      (.ok (unsupportedMsg (detectHybrid o threshold text).1),
       (detectHybrid o threshold text).2) ∧
    Ev.retrieveEv ∉ (translate_text o threshold text).2 ∧
    Ev.generateEv ∉ (translate_text o threshold text).2 := by
  have hcond : (!(SUPPORTED.contains (detectHybrid o threshold text).1) &&
      !((detectHybrid o threshold text).1 == unknownStr)) = true := by
    rw [h1, h2]
    rfl
  have htr : translate_text o threshold text =
      (.ok (unsupportedMsg (detectHybrid o threshold text).1),
       (detectHybrid o threshold text).2) := by
    unfold translate_text
    rw [if_neg (by simp [h0]), if_pos hcond]
  refine ⟨htr, ?_, ?_⟩ <;> rw [htr] <;>
    by_cases hw : wordCount text ≤ threshold <;>
      simp [detectHybrid, hw]

/-- Witness for C5: a reliably French paragraph short-circuits with the
unsupported-language message and no retrieval/generation. -/
theorem C5_witness :
    translate_text oracleFr 2 (str "bonjour tout le monde mes amis") =
      (.ok (unsupportedMsg
        (detectHybrid oracleFr 2 (str "bonjour tout le monde mes amis")).1),
       (detectHybrid oracleFr 2 (str "bonjour tout le monde mes amis")).2) ∧
    Ev.retrieveEv ∉
      (translate_text oracleFr 2 (str "bonjour tout le monde mes amis")).2 ∧
    Ev.generateEv ∉
      (translate_text oracleFr 2 (str "bonjour tout le monde mes amis")).2 :=
  C5_unsupported_language_short_circuit oracleFr 2
    (str "bonjour tout le monde mes amis") (by decide) (by decide) (by decide)

/-- C1 counterexample: on the non-empty request `"bonjour"` (detected as
`"fr"` by the LLM detector) the event trace is `[detectLLM]` — language
detection runs first and the policy filter never executes, refuting both
`Received → PolicyFiltered → LanguageChecked` and "the filter executes
regardless of detected language". -/
theorem C1_counterexample :
    (pyStrip (str "bonjour")).isEmpty = false ∧
    (translate_text oracleFr 2 (str "bonjour")).2 = [Ev.detectLLM] ∧
    Ev.policyFilter ∉ (translate_text oracleFr 2 (str "bonjour")).2 := by
  refine ⟨by decide, by decide, by decide⟩

/-- The RAG chain's own trace on non-empty input: policy filter, then
retrieval, then (when retrieval succeeds) generation. -/
theorem translateCore_trace (o : Oracle) (text : Str) (h : text.isEmpty = false) :
    ∃ tail, (translateCore o text).2 = Ev.policyFilter :: Ev.retrieveEv :: tail := by
  rcases hr : o.retrieveDocs (preprocessMalvinas text) with _ | docs
  · exact ⟨[], by simp [translateCore, h, hr]⟩
  · rcases hg : o.generateOut (formatDocs docs) (preprocessMalvinas text) with _ | out
    · exact ⟨[Ev.generateEv], by simp [translateCore, h, hr, hg]⟩
    · exact ⟨[Ev.generateEv], by simp [translateCore, h, hr, hg]⟩

/-- The hybrid router emits exactly its one detection event. -/
theorem detectHybrid_trace (o : Oracle) (threshold : Nat) (text : Str) :
    (detectHybrid o threshold text).2 = [detEv threshold text] := by
  by_cases hw : wordCount text ≤ threshold <;> simp [detectHybrid, detEv, hw]

/-- C1 amended: on every non-empty request the first event is the
detection event; the policy filter runs only on requests that proceed to
translation (detected language supported or `"unknown"`), where it runs
immediately after detection and before retrieval and generation;
unsupported-language requests never reach the filter. -/
theorem C1_amended_policy_after_detection (o : Oracle) (threshold : Nat)
    (text : Str) (h0 : (pyStrip text).isEmpty = false) :
    ((SUPPORTED.contains (detectHybrid o threshold text).1 ||
        ((detectHybrid o threshold text).1 == unknownStr)) = true →
      ∃ tail, (translate_text o threshold text).2 =
        detEv threshold text :: Ev.policyFilter :: Ev.retrieveEv :: tail) ∧
    ((SUPPORTED.contains (detectHybrid o threshold text).1 ||
        ((detectHybrid o threshold text).1 == unknownStr)) = false →
      (translate_text o threshold text).2 = [detEv threshold text]) := by
  have hne : text.isEmpty = false := by
    cases text with
    | nil => simp [pyStrip, rstripSp] at h0
    | cons a l => rfl
  constructor
  · intro hsup
    have hcond : (!(SUPPORTED.contains (detectHybrid o threshold text).1) &&
        !((detectHybrid o threshold text).1 == unknownStr)) = false := by
      rcases Bool.or_eq_true_iff.mp hsup with hs | hu
      · rw [hs]
        rfl
      · rw [hu]
        exact Bool.and_false _
    obtain ⟨tail, htail⟩ := translateCore_trace o text hne
    refine ⟨tail, ?_⟩
    simp only [translate_text, h0, Bool.false_eq_true, if_false, hcond]
    rw [detectHybrid_trace, htail]
    rfl
  · intro hsup
    have hs := Bool.or_eq_false_iff.mp hsup
    have hcond : (!(SUPPORTED.contains (detectHybrid o threshold text).1) &&
        !((detectHybrid o threshold text).1 == unknownStr)) = true := by
      rw [hs.1, hs.2]
      rfl
    simp only [translate_text, h0, Bool.false_eq_true, if_false, hcond, if_true]
    exact detectHybrid_trace o threshold text

/-- Witness for C1 amended: on a supported-language request the trace is
detection, then filter, then retrieval, then generation. -/
theorem C1_amended_witness :
    ∃ tail, (translate_text (mkOracle (str "en") (str "en")) 2 (str "hello")).2 =
      detEv 2 (str "hello") :: Ev.policyFilter :: Ev.retrieveEv :: tail :=
  (C1_amended_policy_after_detection (mkOracle (str "en") (str "en")) 2
    (str "hello") (by decide)).1 (by decide)

/-- C2 counterexample: a readable, non-empty batch in which every record
fails (malformed JSON, under-length cleaned text, missing `"text"` key)
makes `load_ventureout_data` return the empty list as a *successful*
result rather than raising a `DataLoaderError`. -/
theorem C2_counterexample :
    badBatch.length = 3 ∧
    badBatch.all (fun r => (processRecord r).isNone) = true ∧
    load_ventureout_data (.ok badBatch) = .ok [] := by
  refine ⟨rfl, by decide, rfl⟩

/-- C2 amended: for a readable batch in which every record fails
(blank, malformed JSON, missing `"text"` key, or cleaned content below
100 characters), `load_ventureout_data` returns the empty document list
as a successful result; the `DataLoaderError` branch is reached only
when the file itself cannot be read. -/
theorem C2_amended_all_fail_returns_empty (rs : List VORecord)
    (h : ∀ r ∈ rs, (pyStrip r.raw).isEmpty = true ∨ r.parsed = .error () ∨
      (∃ obj, r.parsed = .ok obj ∧ (obj.textField = none ∨
        ∃ t, obj.textField = some t ∧ (clean_ventureout_text t).length < 100))) :
    load_ventureout_data (.ok rs) = .ok [] ∧
    load_ventureout_data (.error ()) = .error () := by
  refine ⟨?_, rfl⟩
  simp only [load_ventureout_data, Except.ok.injEq]
  rw [List.filterMap_eq_nil_iff]
  intro r hr
  rcases h r hr with hb2 | hp | ⟨obj, hp, hobj⟩
  · simp [processRecord, hb2]
  · unfold processRecord
    split
    · rfl
    · simp [hp]
  · unfold processRecord
    split
    · rfl
    · rcases hobj with hn | ⟨t, ht, hlen⟩
      · simp [hp, hn]
      · simp [hp, ht, hlen]

/-- Witness for C2 amended, at a batch of one blank line and one
under-length record. -/
theorem C2_amended_witness :
    load_ventureout_data
      (.ok [⟨str "  ", .ok ⟨some (str "x"), [], []⟩⟩,
            ⟨str "line", .ok ⟨some (str "tiny"), [], []⟩⟩]) = .ok [] ∧
    load_ventureout_data (.error ()) = .error () :=
  C2_amended_all_fail_returns_empty _ (by
    intro r hr
    simp only [List.mem_cons, List.mem_singleton] at hr
    rcases hr with rfl | rfl | h
    · exact .inl (by decide)
    · exact .inr (.inr ⟨_, rfl, .inr ⟨_, rfl, by decide⟩⟩)
    · cases h)

/-- C3 counterexample: the non-empty input `"https://a.com/bcdefgh"`
cleans to the empty string — a non-sentinel result far below the
threshold 10, because URL removal runs after the minimum-length check. -/
theorem C3_counterexample :
    (str "https://a.com/bcdefgh").isEmpty = false ∧
    clean_text (str "https://a.com/bcdefgh") 10 = [] ∧
    (clean_text (str "https://a.com/bcdefgh") 10).length < 10 ∧
    clean_text (str "https://a.com/bcdefgh") 10 ≠ sentinel := by
  refine ⟨by decide, by decide, by decide, by decide⟩

/-- C3 amended: the minimum-length check is made on the text after
pattern removal, split-point truncation and category-line filtering but
before whitespace collapsing and URL removal: whenever the text at that
stage is empty or strips to fewer than `minLen` characters, `clean_text`
returns the sentinel; the final result can still be a short non-sentinel
string when the later stages shrink it. -/
theorem C3_amended_sentinel_at_check_stage (text : Str) (minLen : Nat)
    (h0 : text.isEmpty = false)
    (h : (catStage (splitStage (removeStage text))).isEmpty = true ∨
      (pyStrip (catStage (splitStage (removeStage text)))).length < minLen) :
    clean_text text minLen = sentinel := by
  simp only [clean_text, h0, Bool.false_eq_true, if_false]
  rcases h with h | h <;> simp [h]

/-- Witness for C3 amended at the too-short input `"ab"`. -/
theorem C3_amended_witness : clean_text (str "ab") 10 = sentinel :=
  C3_amended_sentinel_at_check_stage (str "ab") 10 (by decide) (by decide)

/-- C8 counterexample: a malformed statistical-classifier output
`"en\n"` passes the `^[a-z]{2}$` validation (Python's `$` accepts one
trailing newline) and is returned as-is: a three-character result that
is neither a lowercase two-letter code nor `"unknown"`. -/
theorem C8_counterexample :
    (detectHybrid oracleNl 2 (str "tres palabras aqui")).1 = str "en" ++ [10] ∧
    (detectHybrid oracleNl 2 (str "tres palabras aqui")).1 ≠ unknownStr ∧
    isLowerPair (detectHybrid oracleNl 2 (str "tres palabras aqui")).1 = false := by
  refine ⟨by decide, by decide, by decide⟩

/-- The two shapes that pass the `^[a-z]{2}$` validation. -/
theorem isoMatch_shape (s : Str) (h : isoMatch s = true) :
    (∃ a b, s = [a, b] ∧ 97 ≤ a ∧ a ≤ 122 ∧ 97 ≤ b ∧ b ≤ 122) ∨
    (∃ a b, s = [a, b, 10] ∧ 97 ≤ a ∧ a ≤ 122 ∧ 97 ≤ b ∧ b ≤ 122) := by
  rcases s with _ | ⟨a, _ | ⟨b, _ | ⟨c, _ | ⟨d, tl⟩⟩⟩⟩ <;>
    simp only [isoMatch] at h
  · cases h
  · cases h
  · simp only [Bool.and_eq_true, decide_eq_true_eq] at h
    exact .inl ⟨a, b, rfl, h.1.1, h.1.2, h.2.1, h.2.2⟩
  · simp only [Bool.and_eq_true, decide_eq_true_eq, beq_iff_eq] at h
    exact .inr ⟨a, b, by rw [h.1.1], h.1.2.1, h.1.2.2, h.2.1, h.2.2⟩
  · cases h

/-- `str.lower` leaves a lowercase-ASCII-plus-newline string unchanged. -/
theorem pyLowerAscii_fixed_pair (a b : Nat) (ha : 97 ≤ a) (hb : 97 ≤ b) :
    pyLowerAscii [a, b] = [a, b] ∧ pyLowerAscii [a, b, 10] = [a, b, 10] := by
  constructor <;>
    simp only [pyLowerAscii, List.map] <;>
    rw [if_neg (by omega), if_neg (by omega)]
  rw [if_neg (by omega)]

/-- C8 amended: detection is total (classifier exceptions and malformed
outputs degrade to `"unknown"` rather than propagating), and the result
is always `"unknown"`, a lowercase two-letter code, or — only through
the statistical path's `$`-newline loophole — a lowercase two-letter
code followed by one newline. -/
theorem C8_amended_detection_shape (o : Oracle) (threshold : Nat) (text : Str) :
    (detectHybrid o threshold text).1 = unknownStr ∨
    isLowerPair (detectHybrid o threshold text).1 = true ∨
    (∃ a b, (detectHybrid o threshold text).1 = [a, b, 10] ∧
      97 ≤ a ∧ a ≤ 122 ∧ 97 ≤ b ∧ b ≤ 122) := by
  by_cases hw : wordCount text ≤ threshold
  · simp only [detectHybrid, hw, if_true]
    rcases hllm : o.llmDetectRaw text with e | raw
    · exact .inl (by simp [detectLLM, hllm])
    · simp only [detectLLM, hllm]
      by_cases hu : (pyLowerAscii (pyStrip raw) == unknownStr) = true
      · rw [if_pos (by rw [hu]; rfl)]
        exact .inl (by simpa using hu)
      · by_cases hiso : isoMatch (pyLowerAscii (pyStrip raw)) = true
        · rw [if_pos (by rw [hiso]; exact Bool.or_true _)]
          rcases isoMatch_shape _ hiso with ⟨a, b, heq, ha1, ha2, hb1, hb2⟩ |
            ⟨a, b, heq, ha1, ha2, hb1, hb2⟩
          · refine .inr (.inl ?_)
            rw [heq]
            simp [isLowerPair, ha1, ha2, hb1, hb2]
          · exact .inr (.inr ⟨a, b, heq, ha1, ha2, hb1, hb2⟩)
        · rw [if_neg (by simp [Bool.not_eq_true] at hu hiso; simp [hu, hiso])]
          exact .inl rfl
  · simp only [detectHybrid, hw, if_false]
    rcases hst : o.statDetectRaw text with e | d
    · exact .inl (by simp [detectStat, hst])
    · simp only [detectStat, hst]
      by_cases hiso : isoMatch d = true
      · rw [if_pos hiso]
        rcases isoMatch_shape _ hiso with ⟨a, b, heq, ha1, ha2, hb1, hb2⟩ |
          ⟨a, b, heq, ha1, ha2, hb1, hb2⟩
        · refine .inr (.inl ?_)
          rw [heq, (pyLowerAscii_fixed_pair a b ha1 hb1).1]
          simp [isLowerPair, ha1, ha2, hb1, hb2]
        · refine .inr (.inr ⟨a, b, ?_, ha1, ha2, hb1, hb2⟩)
          rw [heq, (pyLowerAscii_fixed_pair a b ha1 hb1).2]
      · rw [if_neg hiso]
        exact .inl rfl

/-! ### Engine lemmas: the `re.sub` scan decomposes its input -/

theorem runLen_le (p : Nat → Bool) : ∀ s : Str, runLen p s ≤ s.length := by
  intro s
  induction s with
  | nil => simp [runLen]
  | cons c rest ih =>
    simp only [runLen, List.length_cons]
    split
    · omega
    · omega

theorem mlens_le (r : RE) : ∀ (s : Str) (x : Nat), x ∈ r.mlens s → x ≤ s.length := by
  induction r with
  | eps => intro s x hx; simp [RE.mlens] at hx; omega
  | cls p =>
    intro s x hx
    cases s with
    | nil => simp [RE.mlens] at hx
    | cons c rest =>
      simp only [RE.mlens] at hx
      split at hx <;> simp at hx
      simp [hx]
  | seq a b iha ihb =>
    intro s x hx
    simp only [RE.mlens, List.mem_flatMap, List.mem_map] at hx
    obtain ⟨la, hla, lb, hlb, rfl⟩ := hx
    have h1 := iha s la hla
    have h2 := ihb (s.drop la) lb hlb
    rw [List.length_drop] at h2
    omega
  | alt a b iha ihb =>
    intro s x hx
    rcases List.mem_append.mp hx with h | h
    · exact iha s x h
    · exact ihb s x h
  | opt a iha =>
    intro s x hx
    rcases List.mem_append.mp hx with h | h
    · exact iha s x h
    · simp at h
      omega
  | starG p =>
    intro s x hx
    simp only [RE.mlens, List.mem_reverse, List.mem_range] at hx
    have := runLen_le p s
    omega
  | starL p =>
    intro s x hx
    simp only [RE.mlens, List.mem_range] at hx
    have := runLen_le p s
    omega
  | plusG p =>
    intro s x hx
    simp only [RE.mlens, List.mem_map, List.mem_reverse, List.mem_range] at hx
    obtain ⟨y, hy, rfl⟩ := hx
    have := runLen_le p s
    omega

/-- The scan reconstructs its input: replaced spans carry their original
text, untouched characters pass through. -/
theorem subGo_join_orig (r : RE) (nb : Bool) :
    ∀ (s : Str) (k : Nat) (w : Bool),
      joinPieces Piece.origOf (subGo r nb k w s) = s.drop k := by
  intro s
  induction s with
  | nil =>
    intro k w
    cases k <;> simp [subGo, joinPieces]
  | cons c rest ih =>
    intro k w
    cases k with
    | succ k =>
      simp only [subGo, List.drop_succ_cons]
      exact ih k (pyIsWord c)
    | zero =>
      rcases hm : (if !nb || !w then (r.mlens (c :: rest)).head? else none)
        with _ | ⟨_ | l⟩
      · simp only [subGo, hm, joinPieces, List.flatMap_cons, Piece.origOf,
          List.drop_zero]
        rw [← joinPieces]
        rw [ih 0 (pyIsWord c)]
        simp
      · simp only [subGo, hm, joinPieces, List.flatMap_cons, Piece.origOf,
          List.drop_zero]
        rw [← joinPieces]
        rw [ih 0 (pyIsWord c)]
        simp
      · simp only [subGo, hm, joinPieces, List.flatMap_cons, Piece.origOf,
          List.drop_zero]
        rw [← joinPieces]
        rw [ih l (pyIsWord c)]
        have : rest.drop l = (c :: rest).drop (l + 1) := rfl
        rw [this, List.take_append_drop]

/-- With no (boundary-respecting) match anywhere, the scan keeps every
character. -/
theorem subGo_no_match (r : RE) (nb : Bool) :
    ∀ (s : Str) (w : Bool), hasMatchGo r nb w s = false →
      subGo r nb 0 w s = s.map Piece.lit := by
  intro s
  induction s with
  | nil => intro w _; simp [subGo]
  | cons c rest ih =>
    intro w h
    simp only [hasMatchGo, Bool.or_eq_false_iff, Bool.and_eq_false_iff] at h
    have hm : (if !nb || !w then (r.mlens (c :: rest)).head? else none) = none := by
      rcases h.1 with hb | hb
      · rw [if_neg (by simp [hb])]
      · split
        · rw [List.head?_eq_none_iff]
          simpa using hb
        · rfl
    simp only [subGo, hm, List.map_cons]
    rw [ih (pyIsWord c) h.2]

theorem joinPieces_render_lit (repl : Str) :
    ∀ s : Str, joinPieces (Piece.render repl) (s.map Piece.lit) = s := by
  intro s
  induction s with
  | nil => rfl
  | cons c rest ih =>
    simp only [List.map_cons, joinPieces, List.flatMap_cons, Piece.render]
    rw [← joinPieces, ih]
    rfl

/-- `re.sub` is the identity when the pattern matches nowhere. -/
theorem pySub_no_match (r : RE) (nb : Bool) (repl s : Str)
    (h : hasMatch r nb s = false) : pySub r nb repl s = s := by
  unfold pySub subPieces
  rw [subGo_no_match r nb s false h, joinPieces_render_lit]

/-- Every replaced span of the scan is a non-empty leftmost match of the
pattern: together with what follows it, the engine commits to exactly
that span. -/
theorem subGo_rep_match (r : RE) (nb : Bool) :
    ∀ (s : Str) (k : Nat) (w : Bool) (p : Piece), p ∈ subGo r nb k w s →
      p.isRep = true →
      ∃ o t, p = .rep o ∧ 0 < o.length ∧ (r.mlens (o ++ t)).head? = some o.length := by
  intro s
  induction s with
  | nil =>
    intro k w p hp
    cases k <;> simp [subGo] at hp
  | cons c rest ih =>
    intro k w p hp hrep
    cases k with
    | succ k =>
      simp only [subGo] at hp
      exact ih k (pyIsWord c) p hp hrep
    | zero =>
      rcases hm : (if !nb || !w then (r.mlens (c :: rest)).head? else none)
        with _ | ⟨_ | l⟩
      · simp only [subGo, hm, List.mem_cons] at hp
        rcases hp with rfl | hp
        · cases hrep
        · exact ih 0 (pyIsWord c) p hp hrep
      · simp only [subGo, hm, List.mem_cons] at hp
        rcases hp with rfl | hp
        · cases hrep
        · exact ih 0 (pyIsWord c) p hp hrep
      · simp only [subGo, hm, List.mem_cons] at hp
        rcases hp with rfl | hp
        · have hhead : (r.mlens (c :: rest)).head? = some (l + 1) := by
            by_cases hb : (!nb || !w) = true
            · rwa [if_pos hb] at hm
            · rw [if_neg hb] at hm
              cases hm
          have hmem : (l + 1) ∈ r.mlens (c :: rest) := by
            cases hml : r.mlens (c :: rest) with
            | nil => rw [hml] at hhead; cases hhead
            | cons x xs =>
              rw [hml] at hhead
              simp only [List.head?_cons, Option.some.injEq] at hhead
              rw [hhead]
              exact List.mem_cons_self _ _
          have hle : l + 1 ≤ (c :: rest).length := mlens_le r (c :: rest) (l + 1) hmem
          refine ⟨(c :: rest).take (l + 1), (c :: rest).drop (l + 1), rfl, ?_, ?_⟩
          · simp [List.length_take]
          · rw [List.take_append_drop]
            rw [hhead, List.length_take]
            congr 1
            omega
        · exact ih l (pyIsWord c) p hp hrep

/-- C10: on inputs with no (case-insensitive, word-boundary-respecting)
match of any of the three sovereignty patterns, the policy filter is the
identity; and in general each substitution pass decomposes its input
into untouched characters and matched spans — the output is the render
of exactly that decomposition, so every character outside the matched
spans is preserved. -/
theorem C10_filter_frame (text : Str) :
    ((hasMatch malvP1 true text || hasMatch malvP2 true text ||
        hasMatch malvP3 true text) = false →
      preprocessMalvinas text = text) ∧
    (∀ r, r = malvP1 ∨ r = malvP2 ∨ r = malvP3 →
      joinPieces Piece.origOf (subPieces r true text) = text ∧
      pySub r true canonMalvinas text =
        joinPieces (Piece.render canonMalvinas) (subPieces r true text)) := by
  constructor
  · intro h
    rcases Bool.or_eq_false_iff.mp h with ⟨h12, h3⟩
    rcases Bool.or_eq_false_iff.mp h12 with ⟨h1, h2⟩
    unfold preprocessMalvinas
    rw [pySub_no_match malvP1 true _ _ h1, pySub_no_match malvP2 true _ _ h2,
      pySub_no_match malvP3 true _ _ h3]
  · intro r _
    exact ⟨by simpa using subGo_join_orig r true text 0 false, rfl⟩

/-- Witness for C10: the filter leaves `"hello world"` unchanged. -/
theorem C10_witness : preprocessMalvinas (str "hello world") = str "hello world" :=
  (C10_filter_frame (str "hello world")).1 (by decide)

/-- C4 counterexample: in `"British Falklands are British"` pattern 3
matches `"British Falklands"` at position 0 (the engine commits to
length 17 there), yet the filter's output keeps that match's head
`"British "` — the match is not rewritten to the canonical
counter-statement, because the pattern-1 pass consumed its tail first. -/
theorem C4_counterexample :
    (malvP3.mlens overlapInput).head? = some 17 ∧
    preprocessMalvinas overlapInput = str "British Las Malvinas son argentinas" ∧
    canonMalvinas.isPrefixOf (preprocessMalvinas overlapInput) = false := by
  refine ⟨by decide, by decide, by decide⟩

/-- C4 amended: the filter is three sequential left-to-right `re.sub`
passes, one per pattern in the listed order; each pass rewrites every
match it finds to the single exact canonical counter-statement
`"Las Malvinas son argentinas"` and preserves all other characters, and
the whole filter is a deterministic function of the text alone
(independent of detected language).  A later pattern's match whose span
overlaps an earlier rewrite is not separately rewritten. -/
theorem C4_amended_canonical_rewrite (text : Str) :
    preprocessMalvinas text =
      pySub malvP3 true canonMalvinas (pySub malvP2 true canonMalvinas
        (pySub malvP1 true canonMalvinas text)) ∧
    (∀ r s, r = malvP1 ∨ r = malvP2 ∨ r = malvP3 →
      pySub r true canonMalvinas s =
        joinPieces (Piece.render canonMalvinas) (subPieces r true s) ∧
      joinPieces Piece.origOf (subPieces r true s) = s ∧
      ∀ p ∈ subPieces r true s, p.isRep = true →
        Piece.render canonMalvinas p = canonMalvinas ∧
        ∃ o t, p = .rep o ∧ 0 < o.length ∧
          (r.mlens (o ++ t)).head? = some o.length) := by
  refine ⟨rfl, ?_⟩
  intro r s _
  refine ⟨rfl, by simpa using subGo_join_orig r true s 0 false, ?_⟩
  intro p hp hrep
  constructor
  · cases p with
    | lit c => cases hrep
    | rep o => rfl
  · exact subGo_rep_match r true s 0 false p hp hrep

/-- Witness for C4 amended: on `"the Falklands are British"` the single
matched span is rewritten and reconstruction holds. -/
theorem C4_amended_witness :
    joinPieces Piece.origOf (subPieces malvP1 true (str "the Falklands are British")) =
      str "the Falklands are British" :=
  ((C4_amended_canonical_rewrite (str "x")).2 malvP1
    (str "the Falklands are British") (.inl rfl)).2.1

/-- C9 counterexample: `"aaaaaaaaaaaaaaaaaaaa Leave a  Reply"` contains no
boilerplate marker (the double space defeats both the removal patterns
and the split points), but cleaning collapses the double space, which
creates the split-point marker `"Leave a Reply"`, so a second cleaning
pass truncates: `clean_text` is not idempotent on this marker-free
input. -/
theorem C9_counterexample :
    markerFree nonIdemInput = true ∧
    clean_text nonIdemInput 10 = str "aaaaaaaaaaaaaaaaaaaa Leave a Reply" ∧
    clean_text (clean_text nonIdemInput 10) 10 = str "aaaaaaaaaaaaaaaaaaaa" ∧
    clean_text (clean_text nonIdemInput 10) 10 ≠ clean_text nonIdemInput 10 := by
  refine ⟨by decide, by decide, by decide, by decide⟩

/-! ### Scan-position lemmas: matches survive extension, inclusion and
boundary-normalising character maps -/

/-- Without a leading `\b` the previous-character flag is irrelevant. -/
theorem hmg_indep (r : RE) (s : Str) (w w' : Bool) :
    hasMatchGo r false w s = hasMatchGo r false w' s := by
  cases s <;> simp [hasMatchGo]

theorem runLen_le_append (p : Nat → Bool) :
    ∀ s t : Str, runLen p s ≤ runLen p (s ++ t) := by
  intro s t
  induction s with
  | nil => exact Nat.zero_le _
  | cons c rest ih =>
    show runLen p (c :: rest) ≤ runLen p (c :: (rest ++ t))
    simp only [runLen]
    split <;> omega

theorem mlens_mem_append (r : RE) :
    ∀ (s t : Str) (x : Nat), x ∈ r.mlens s → x ∈ r.mlens (s ++ t) := by
  induction r with
  | eps => intro s t x hx; simpa [RE.mlens] using hx
  | cls p =>
    intro s t x hx
    cases s with
    | nil => simp [RE.mlens] at hx
    | cons c rest => simpa [RE.mlens] using hx
  | seq a b iha ihb =>
    intro s t x hx
    simp only [RE.mlens, List.mem_flatMap, List.mem_map] at hx ⊢
    obtain ⟨la, hla, lb, hlb, rfl⟩ := hx
    refine ⟨la, iha s t la hla, lb, ?_, rfl⟩
    have hle : la ≤ s.length := mlens_le a s la hla
    rw [List.drop_append_eq_append_drop, Nat.sub_eq_zero_of_le hle, List.drop_zero]
    exact ihb _ t lb hlb
  | alt a b iha ihb =>
    intro s t x hx
    simp only [RE.mlens, List.mem_append] at hx ⊢
    rcases hx with h | h
    · exact .inl (iha s t x h)
    · exact .inr (ihb s t x h)
  | opt a iha =>
    intro s t x hx
    simp only [RE.mlens, List.mem_append] at hx ⊢
    rcases hx with h | h
    · exact .inl (iha s t x h)
    · exact .inr h
  | starG p =>
    intro s t x hx
    simp only [RE.mlens, List.mem_reverse, List.mem_range] at hx ⊢
    have := runLen_le_append p s t
    omega
  | starL p =>
    intro s t x hx
    simp only [RE.mlens, List.mem_range] at hx ⊢
    have := runLen_le_append p s t
    omega
  | plusG p =>
    intro s t x hx
    simp only [RE.mlens, List.mem_map, List.mem_reverse, List.mem_range] at hx ⊢
    obtain ⟨y, hy, rfl⟩ := hx
    have := runLen_le_append p s t
    exact ⟨y, by omega, rfl⟩

theorem mlens_nonempty_append (r : RE) (s t : Str)
    (h : (r.mlens s).isEmpty = false) : (r.mlens (s ++ t)).isEmpty = false := by
  cases hs : r.mlens s with
  | nil => rw [hs] at h; cases h
  | cons x xs =>
    have hx : x ∈ r.mlens (s ++ t) :=
      mlens_mem_append r s t x (by rw [hs]; exact List.mem_cons_self _ _)
    cases hst : r.mlens (s ++ t) with
    | nil => rw [hst] at hx; cases hx
    | cons y ys => rfl

/-- A match found inside the suffix is found in the whole string. -/
theorem hasMatch_in_suffix (r : RE) :
    ∀ (u v : Str) (w w' : Bool), hasMatchGo r false w v = true →
      hasMatchGo r false w' (u ++ v) = true := by
  intro u
  induction u with
  | nil =>
    intro v w w' h
    rw [List.nil_append, hmg_indep r v w' w]
    exact h
  | cons c u' ih =>
    intro v w w' h
    simp only [List.cons_append, hasMatchGo, Bool.or_eq_true]
    exact .inr (ih v w (pyIsWord c) h)

/-- A match found in a prefix survives appending on the right. -/
theorem hasMatch_extend_right (r : RE) :
    ∀ (u v : Str) (w : Bool), hasMatchGo r false w u = true →
      hasMatchGo r false w (u ++ v) = true := by
  intro u
  induction u with
  | nil => intro v w h; cases h
  | cons c u' ih =>
    intro v w h
    simp only [hasMatchGo, Bool.or_eq_true, Bool.and_eq_true] at h
    simp only [List.cons_append, hasMatchGo, Bool.or_eq_true, Bool.and_eq_true]
    rcases h with ⟨hb, hne⟩ | h
    · refine .inl ⟨hb, ?_⟩
      have := mlens_nonempty_append r (c :: u') v (by simpa using hne)
      simpa [List.cons_append] using this
    · exact .inr (ih v (pyIsWord c) h)

/-- No match in a string means no match in any infix of it. -/
theorem hasMatch_infix_false (r : RE) (a m b : Str)
    (h : hasMatch r false (a ++ m ++ b) = false) : hasMatch r false m = false := by
  by_contra hm
  rw [Bool.not_eq_false] at hm
  have h1 : hasMatchGo r false false (m ++ b) = true :=
    hasMatch_extend_right r m b false hm
  have h2 : hasMatchGo r false false (a ++ (m ++ b)) = true :=
    hasMatch_in_suffix r a (m ++ b) false false h1
  rw [← List.append_assoc] at h2
  have h' : hasMatchGo r false false (a ++ m ++ b) = false := h
  rw [h2] at h'
  cases h'

/-- The line-boundary characters, enumerated. -/
theorem isLB_cases (c : Nat) (h : isLB c = true) :
    c = 10 ∨ c = 11 ∨ c = 12 ∨ c = 13 ∨ c = 28 ∨ c = 29 ∨ c = 30 ∨
    c = 133 ∨ c = 8232 ∨ c = 8233 := by
  simp only [isLB, Bool.or_eq_true, Bool.and_eq_true, decide_eq_true_eq,
    beq_iff_eq] at h
  omega

/-- An insensitive class gives the same verdict after the boundary map. -/
theorem clsOKB_spec (p : Nat → Bool) (h : clsOKB p = true) (c : Nat) :
    p (mapBf c) = p c := by
  unfold mapBf
  split
  case isTrue hlb =>
    simp only [clsOKB, Bool.and_eq_true, beq_iff_eq] at h
    obtain ⟨⟨⟨⟨⟨⟨⟨⟨h11, h12⟩, h13⟩, h28⟩, h29⟩, h30⟩, h133⟩, h8232⟩, h8233⟩ := h
    rcases isLB_cases c hlb with rfl | rfl | rfl | rfl | rfl | rfl | rfl | rfl | rfl | rfl
    · rfl
    · exact h11.symm
    · exact h12.symm
    · exact h13.symm
    · exact h28.symm
    · exact h29.symm
    · exact h30.symm
    · exact h133.symm
    · exact h8232.symm
    · exact h8233.symm
  case isFalse => rfl

theorem runLen_map_mapBf (p : Nat → Bool) (hp : clsOKB p = true) :
    ∀ s : Str, runLen p (s.map mapBf) = runLen p s := by
  intro s
  induction s with
  | nil => rfl
  | cons c rest ih =>
    simp only [List.map_cons, runLen, clsOKB_spec p hp c, ih]

/-- Boundary-insensitive patterns match the same lengths after the
boundary map. -/
theorem mlens_map_mapBf (r : RE) (hr : r.goodB = true) :
    ∀ s : Str, r.mlens (s.map mapBf) = r.mlens s := by
  induction r with
  | eps => intro s; rfl
  | cls p =>
    intro s
    cases s with
    | nil => rfl
    | cons c rest => simp [RE.mlens, clsOKB_spec p hr c]
  | seq a b iha ihb =>
    intro s
    simp only [RE.goodB, Bool.and_eq_true] at hr
    simp only [RE.mlens, iha hr.1 s]
    congr 1
    funext la
    rw [← List.map_drop, ihb hr.2]
  | alt a b iha ihb =>
    intro s
    simp only [RE.goodB, Bool.and_eq_true] at hr
    simp only [RE.mlens, iha hr.1 s, ihb hr.2 s]
  | opt a iha =>
    intro s
    simp only [RE.mlens, iha hr s]
  | starG p => intro s; simp only [RE.mlens, runLen_map_mapBf p hr s]
  | starL p => intro s; simp only [RE.mlens, runLen_map_mapBf p hr s]
  | plusG p => intro s; simp only [RE.mlens, runLen_map_mapBf p hr s]

/-! ### `splitlines` shape lemmas -/

theorem splitlines_cons_LB (c : Nat) (rest : Str) (hc : isLB c = true)
    (hnc : ¬(c = 13 ∧ ∃ r2, rest = 10 :: r2)) :
    pySplitlines (c :: rest) = [] :: pySplitlines rest := by
  rw [pySplitlines.eq_def]
  split
  · simp_all
  · rename_i heq
    injection heq with h1 h2
    exact absurd ⟨h1, _, h2⟩ hnc
  · rename_i heq
    injection heq with h1 h2
    subst h1
    subst h2
    rw [if_pos hc]

theorem splitlines_cons_content (c : Nat) (rest : Str) (hc : isLB c = false) :
    pySplitlines (c :: rest) =
      (match pySplitlines rest with
       | [] => [[c]]
       | l :: ls => (c :: l) :: ls) := by
  rw [pySplitlines.eq_def]
  split
  · simp_all
  · rename_i heq
    injection heq with h1 h2
    subst h1
    cases hc
  · rename_i heq
    injection heq with h1 h2
    subst h1
    subst h2
    rw [if_neg (by simp [hc])]

theorem splitlines_eq_nil_iff (s : Str) : pySplitlines s = [] ↔ s = [] := by
  constructor
  · intro h
    cases s with
    | nil => rfl
    | cons c rest =>
      exfalso
      by_cases hc : isLB c = true
      · by_cases hcr : c = 13 ∧ ∃ r2, rest = 10 :: r2
        · obtain ⟨rfl, r2, rfl⟩ := hcr
          rw [show pySplitlines (13 :: 10 :: r2) = [] :: pySplitlines r2 from rfl] at h
          cases h
        · rw [splitlines_cons_LB c rest hc hcr] at h
          cases h
      · rw [splitlines_cons_content c rest (by simpa using hc)] at h
        rcases hr : pySplitlines rest with _ | ⟨l, ls⟩ <;> rw [hr] at h <;> cases h
  · rintro rfl
    rfl

theorem noCRLF_cons (c : Nat) (rest : Str) (h : noCRLF (c :: rest) = true) :
    noCRLF rest = true := by
  rw [noCRLF.eq_def] at h
  split at h
  · cases h
  · rename_i heq
    injection heq with h1 h2
    subst h2
    exact h
  · simp at *

theorem noCRLF_not_crlf (rest : Str) (h : noCRLF (13 :: rest) = true) :
    ¬∃ r2, rest = 10 :: r2 := by
  rintro ⟨r2, rfl⟩
  cases h

theorem joinNL_cons_cons (l : Str) (m : Str) (ls : List Str) :
    joinNL ((l ++ m) :: ls) = l ++ joinNL (m :: ls) := by
  cases ls with
  | nil => rfl
  | cons x xs => simp [joinNL]

theorem joinNL_head_cons (c : Nat) (l : Str) (ls : List Str) :
    joinNL ((c :: l) :: ls) = c :: joinNL (l :: ls) := by
  cases ls with
  | nil => rfl
  | cons x xs => simp [joinNL]

theorem stripTrailB_cons_ne (c : Nat) (w : Str) (hw : w ≠ []) :
    stripTrailB (c :: w) = c :: stripTrailB w := by
  rw [stripTrailB.eq_def]
  split
  · simp_all
  · rename_i heq
    injection heq with h1 h2
    subst h2
    exact absurd rfl hw
  · rename_i heq
    injection heq with h1 h2
    subst h1
    subst h2
    rfl

/-- Rewriting line boundaries to `"\n"` does not change the line
decomposition (in the absence of CRLF pairs). -/
theorem splitlines_map_mapBf (s : Str) (h : noCRLF s = true) :
    pySplitlines (s.map mapBf) = pySplitlines s := by
  induction s with
  | nil => rfl
  | cons c rest ih =>
    have hrest := noCRLF_cons c rest h
    by_cases hc : isLB c = true
    · have hm : mapBf c = 10 := by simp [mapBf, hc]
      have hnc : ¬(c = 13 ∧ ∃ r2, rest = 10 :: r2) := by
        rintro ⟨rfl, r2, rfl⟩
        cases h
      have hnc2 : ¬((10 : Nat) = 13 ∧ ∃ r2, rest.map mapBf = 10 :: r2) := by
        rintro ⟨h13, _⟩
        cases h13
      simp only [List.map_cons, hm]
      rw [splitlines_cons_LB 10 (rest.map mapBf) (by decide) hnc2,
        splitlines_cons_LB c rest hc hnc, ih hrest]
    · have hm : mapBf c = c := by simp [mapBf, hc]
      simp only [List.map_cons, hm]
      rw [splitlines_cons_content c (rest.map mapBf) (by simpa using hc),
        splitlines_cons_content c rest (by simpa using hc), ih hrest]

/-- `"\n".join(text.splitlines())` normalises line boundaries to `"\n"`
and drops one trailing boundary. -/
theorem joinNL_splitlines (s : Str) (h : noCRLF s = true) :
    joinNL (pySplitlines s) = stripTrailB (s.map mapBf) := by
  induction s with
  | nil => rfl
  | cons c rest ih =>
    have hrest := noCRLF_cons c rest h
    have hmapnil : rest.map mapBf = [] ↔ rest = [] := by
      cases rest <;> simp
    by_cases hc : isLB c = true
    · have hm : mapBf c = 10 := by simp [mapBf, hc]
      have hnc : ¬(c = 13 ∧ ∃ r2, rest = 10 :: r2) := by
        rintro ⟨rfl, r2, rfl⟩
        cases h
      rw [splitlines_cons_LB c rest hc hnc]
      simp only [List.map_cons, hm]
      cases hrn : rest with
      | nil =>
        subst hrn
        rfl
      | cons x xs =>
        subst hrn
        have hne : (x :: xs).map mapBf ≠ [] := by simp
        rw [stripTrailB_cons_ne 10 _ hne, ← ih hrest]
        have hlne : pySplitlines (x :: xs) ≠ [] := by
          rw [Ne, splitlines_eq_nil_iff]
          simp
        cases hls : pySplitlines (x :: xs) with
        | nil => exact absurd hls hlne
        | cons l ls => simp [joinNL]
    · have hm : mapBf c = c := by simp [mapBf, hc]
      rw [splitlines_cons_content c rest (by simpa using hc)]
      simp only [List.map_cons, hm]
      cases hrn : rest with
      | nil =>
        subst hrn
        simp only [pySplitlines, joinNL, List.map_nil]
        rw [stripTrailB.eq_def]
        simp [hc]
      | cons x xs =>
        subst hrn
        have hne : (x :: xs).map mapBf ≠ [] := by simp
        rw [stripTrailB_cons_ne c _ hne, ← ih hrest]
        have hlne : pySplitlines (x :: xs) ≠ [] := by
          rw [Ne, splitlines_eq_nil_iff]
          simp
        cases hls : pySplitlines (x :: xs) with
        | nil => exact absurd hls hlne
        | cons l ls => exact joinNL_head_cons c l ls

theorem hasMatch_map_mapBf (r : RE) (hr : r.goodB = true) :
    ∀ (s : Str) (w w' : Bool),
      hasMatchGo r false w (s.map mapBf) = hasMatchGo r false w' s := by
  intro s
  induction s with
  | nil => intro w w'; rfl
  | cons c rest ih =>
    intro w w'
    simp only [List.map_cons, hasMatchGo, Bool.not_false, Bool.true_or,
      Bool.true_and]
    rw [ih (pyIsWord (mapBf c)) (pyIsWord c)]
    have : RE.mlens r (mapBf c :: List.map mapBf rest) = RE.mlens r (c :: rest) := by
      have := mlens_map_mapBf r hr (c :: rest)
      simpa using this
    rw [this]

/-! ### Whitespace facts and the category-line test under stripping -/

theorem lb_subset_sp (c : Nat) (h : isLB c = true) : pyIsSpace c = true := by
  simp only [isLB, Bool.or_eq_true, Bool.and_eq_true, decide_eq_true_eq,
    beq_iff_eq] at h
  simp only [pyIsSpace, Bool.or_eq_true, Bool.and_eq_true, decide_eq_true_eq,
    beq_iff_eq]
  omega

theorem sp_not_digit (c : Nat) (h : pyIsSpace c = true) : pyIsDigit c = false := by
  simp only [pyIsSpace, Bool.or_eq_true, Bool.and_eq_true, decide_eq_true_eq,
    beq_iff_eq] at h
  simp only [pyIsDigit, Bool.and_eq_true, decide_eq_true_eq, Bool.and_eq_false_iff,
    decide_eq_false_iff_not]
  omega

theorem sp_ne_41 (c : Nat) (h : pyIsSpace c = true) : (c == 41) = false := by
  simp only [pyIsSpace, Bool.or_eq_true, Bool.and_eq_true, decide_eq_true_eq,
    beq_iff_eq] at h
  simp only [beq_eq_false_iff_ne, ne_eq]
  omega

theorem sp_mapBf (c : Nat) : pyIsSpace (mapBf c) = pyIsSpace c := by
  unfold mapBf
  split
  case isTrue hlb =>
    rw [lb_subset_sp c hlb]
    rfl
  case isFalse => rfl

theorem takeWhile_append_of_dropWhile_ne (p : Nat → Bool) :
    ∀ (l t : Str), l.dropWhile p ≠ [] →
      (l ++ t).takeWhile p = l.takeWhile p := by
  intro l
  induction l with
  | nil => intro t h; exact absurd rfl h
  | cons c l' ih =>
    intro t h
    by_cases hc : p c = true
    · rw [List.dropWhile_cons, if_pos hc] at h
      simp only [List.cons_append, List.takeWhile_cons, hc, if_pos]
      rw [ih t h]
    · simp only [List.cons_append, List.takeWhile_cons, hc]
      simp

theorem dropWhile_append_of_dropWhile_ne (p : Nat → Bool) (l t : Str)
    (h : l.dropWhile p ≠ []) :
    (l ++ t).dropWhile p = l.dropWhile p ++ t := by
  rw [List.dropWhile_append, if_neg (by simpa [List.isEmpty_iff] using h)]

theorem catMatch_cons_sp (c : Nat) (l : Str) (hc : pyIsSpace c = true) :
    catMatch (c :: l) = catMatch l := by
  unfold catMatch
  rw [List.dropWhile_cons, if_pos hc]

theorem catMatch_append_sp (l : Str) (c : Nat) (hc : pyIsSpace c = true) :
    catMatch (l ++ [c]) = catMatch l := by
  unfold catMatch
  rw [List.dropWhile_append]
  by_cases hd : (l.dropWhile pyIsSpace).isEmpty = true
  · rw [if_pos hd]
    have h1 : List.dropWhile pyIsSpace [c] = ([] : Str) := by
      simp [List.dropWhile_cons, hc]
    have h2 : l.dropWhile pyIsSpace = [] := by simpa [List.isEmpty_iff] using hd
    rw [h1, h2]
  · rw [if_neg hd]
    have hne : l.dropWhile pyIsSpace ≠ [] := by
      simpa [List.isEmpty_iff] using hd
    obtain ⟨d0, d', hd2⟩ : ∃ d0 d', l.dropWhile pyIsSpace = d0 :: d' := by
      cases hx : l.dropWhile pyIsSpace with
      | nil => exact absurd hx hne
      | cons a b => exact ⟨a, b, rfl⟩
    rw [hd2]
    simp only [List.cons_append]
    by_cases hdig : (d'.dropWhile pyIsDigit).isEmpty = true
    · have h2 : d'.dropWhile pyIsDigit = [] := by simpa [List.isEmpty_iff] using hdig
      have h3 : (d' ++ [c]).dropWhile pyIsDigit = [c] := by
        rw [List.dropWhile_append, if_pos hdig]
        simp [List.dropWhile_cons, sp_not_digit c hc]
      rw [h2, h3]
      simp [sp_ne_41 c hc]
    · have hne2 : d'.dropWhile pyIsDigit ≠ [] := by
        simpa [List.isEmpty_iff] using hdig
      obtain ⟨e0, e', he⟩ : ∃ e0 e', d'.dropWhile pyIsDigit = e0 :: e' := by
        cases hx : d'.dropWhile pyIsDigit with
        | nil => exact absurd hx hne2
        | cons a b => exact ⟨a, b, rfl⟩
      have h3 : (d' ++ [c]).dropWhile pyIsDigit = e0 :: (e' ++ [c]) := by
        rw [dropWhile_append_of_dropWhile_ne pyIsDigit d' [c] hne2, he]
        rfl
      have h4 : (d' ++ [c]).takeWhile pyIsDigit = d'.takeWhile pyIsDigit :=
        takeWhile_append_of_dropWhile_ne pyIsDigit d' [c] hne2
      rw [h3, h4, he]
      congr 2
      show ((e0 == 41) && ((e' ++ [c]).dropWhile pyIsSpace).isEmpty) =
        ((e0 == 41) && (e'.dropWhile pyIsSpace).isEmpty)
      congr 1
      rw [List.dropWhile_append]
      by_cases hsp : (e'.dropWhile pyIsSpace).isEmpty = true
      · rw [if_pos hsp]
        have h5 : e'.dropWhile pyIsSpace = [] := by simpa [List.isEmpty_iff] using hsp
        rw [h5]
        simp [List.dropWhile_cons, hc]
      · rw [if_neg hsp]
        have hne3 : e'.dropWhile pyIsSpace ≠ [] := by
          simpa [List.isEmpty_iff] using hsp

        cases hx : e'.dropWhile pyIsSpace with
        | nil => exact absurd hx hne3
        | cons a b => simp [hx]

/-! ### `noCRLF` transfer and `splitlines` under single-character appends -/

theorem noCRLF_cons_eq (a : Nat) (rest : Str)
    (h : ¬(a = 13 ∧ ∃ r, rest = 10 :: r)) :
    noCRLF (a :: rest) = noCRLF rest := by
  rw [noCRLF.eq_def]
  split
  · rename_i heq
    injection heq with h1 h2
    exact absurd ⟨h1, _, h2⟩ h
  · rename_i heq
    injection heq with h1 h2
    rw [h2]
  · simp_all

theorem noCRLF_pre (u w : Str) (h : noCRLF (u ++ w) = true) :
    noCRLF u = true := by
  induction u with
  | nil => rfl
  | cons a u' ih =>
    have hpair : ¬(a = 13 ∧ ∃ r, u' = 10 :: r) := by
      rintro ⟨rfl, r, rfl⟩
      cases h
    have hpair2 : ¬(a = 13 ∧ ∃ r, u' ++ w = 10 :: r) := by
      rintro ⟨rfl, r, hr⟩
      rw [List.cons_append, hr] at h
      cases h
    rw [noCRLF_cons_eq a u' hpair]
    rw [List.cons_append, noCRLF_cons_eq a (u' ++ w) hpair2] at h
    exact ih h

theorem noCRLF_map_mapBf (s : Str) (h : noCRLF s = true) :
    noCRLF (s.map mapBf) = true := by
  induction s with
  | nil => rfl
  | cons a rest ih =>
    have hrest := noCRLF_cons a rest h
    have hm : mapBf a ≠ 13 := by
      unfold mapBf
      split
      · simp
      · rename_i ha
        intro h13
        rw [h13] at ha
        exact ha (by decide)
    rw [List.map_cons, noCRLF_cons_eq (mapBf a) _ (by rintro ⟨h13, _⟩; exact hm h13)]
    exact ih hrest

/-- Appending one line-boundary character either preserves the line list
or adds one empty line. -/
theorem splitlines_append_LB (b : Nat) (hb : isLB b = true) :
    ∀ v : Str, noCRLF (v ++ [b]) = true →
      pySplitlines (v ++ [b]) = pySplitlines v ∨
      pySplitlines (v ++ [b]) = pySplitlines v ++ [[]] := by
  intro v
  induction v with
  | nil =>
    intro _
    refine .inr ?_
    rw [List.nil_append]
    rw [splitlines_cons_LB b [] hb (by rintro ⟨_, _, h⟩; cases h)]
    rfl
  | cons a v' ih =>
    intro hnc
    have hnc' : noCRLF (v' ++ [b]) = true := noCRLF_cons a _ hnc
    have hd := ih hnc'
    by_cases ha : isLB a = true
    · have hp1 : ¬(a = 13 ∧ ∃ r, v' ++ [b] = 10 :: r) := by
        rintro ⟨rfl, r, hr⟩
        rw [List.cons_append, hr] at hnc
        cases hnc
      have hp2 : ¬(a = 13 ∧ ∃ r, v' = 10 :: r) := by
        rintro ⟨rfl, r, rfl⟩
        exact hp1 ⟨rfl, r ++ [b], rfl⟩
      rw [List.cons_append, splitlines_cons_LB a (v' ++ [b]) ha hp1,
        splitlines_cons_LB a v' ha hp2]
      rcases hd with hd | hd
      · exact .inl (by rw [hd])
      · exact .inr (by rw [hd]; rfl)
    · have ha' : isLB a = false := by simpa using ha
      rw [List.cons_append, splitlines_cons_content a (v' ++ [b]) ha',
        splitlines_cons_content a v' ha']
      rcases hv' : pySplitlines v' with _ | ⟨n, ns⟩
      · have hv'nil : v' = [] := (splitlines_eq_nil_iff v').mp hv'
        subst hv'nil
        rcases hd with hd | hd
        · rw [hv'] at hd
          have : ([b] : Str) ≠ [] := by simp
          rw [List.nil_append] at hd
          exact absurd ((splitlines_eq_nil_iff [b]).mp hd) this
        · rw [hv', List.nil_append] at hd
          rw [List.nil_append, hd]
          exact .inl rfl
      · rcases hd with hd | hd
        · rw [hd, hv']
          exact .inl rfl
        · rw [hd, hv']
          refine .inr ?_
          rfl

/-- Appending one non-boundary character either starts a fresh line (after
a trailing boundary) or extends the last line. -/
theorem splitlines_append_content (b : Nat) (hb : isLB b = false) :
    ∀ v : Str,
      pySplitlines (v ++ [b]) = pySplitlines v ++ [[b]] ∨
      ∃ ls l, pySplitlines v = ls ++ [l] ∧
        pySplitlines (v ++ [b]) = ls ++ [l ++ [b]] := by
  intro v
  induction v using pySplitlines.induct with
  | case1 =>
    refine .inl ?_
    rw [List.nil_append, splitlines_cons_content b [] hb]
    rfl
  | case2 r ih =>
    have e1 : pySplitlines ((13 :: 10 :: r) ++ [b]) = [] :: pySplitlines (r ++ [b]) := rfl
    have e2 : pySplitlines (13 :: 10 :: r) = [] :: pySplitlines r := rfl
    rcases ih with hd | ⟨ls, l, h1, h2⟩
    · refine .inl ?_
      rw [e1, e2, hd]
      rfl
    · refine .inr ⟨[] :: ls, l, ?_, ?_⟩
      · rw [e2, h1]
        rfl
      · rw [e1, h2]
        rfl
  | case3 a v' hside ha ih =>
    have hp1 : ¬(a = 13 ∧ ∃ r, v' ++ [b] = 10 :: r) := by
      rintro ⟨rfl, r, hr⟩
      cases v' with
      | nil =>
        simp only [List.nil_append, List.cons.injEq] at hr
        rw [hr.1] at hb
        cases hb
      | cons x v'' =>
        simp only [List.cons_append, List.cons.injEq] at hr
        exact hside v'' rfl (by rw [hr.1])
    have hp2 : ¬(a = 13 ∧ ∃ r, v' = 10 :: r) := by
      rintro ⟨rfl, r, rfl⟩
      exact hside r rfl rfl
    rw [List.cons_append, splitlines_cons_LB a (v' ++ [b]) ha hp1,
      splitlines_cons_LB a v' ha hp2]
    rcases ih with hd | ⟨ls, l, h1, h2⟩
    · refine .inl ?_
      rw [hd]
      rfl
    · refine .inr ⟨[] :: ls, l, ?_, ?_⟩
      · rw [h1]
        rfl
      · rw [h2]
        rfl
  | case4 a v' hside ha hnil ih =>
    have ha' : isLB a = false := by simpa using ha
    have hv'nil : v' = [] := (splitlines_eq_nil_iff v').mp hnil
    subst hv'nil
    refine .inr ⟨[], [a], ?_, ?_⟩
    · rw [splitlines_cons_content a [] ha']
      rfl
    · rw [List.cons_append, List.nil_append,
        splitlines_cons_content a [b] ha',
        splitlines_cons_content b [] hb]
      rfl
  | case5 a v' hside ha l ls hcons ih =>
    have ha' : isLB a = false := by simpa using ha
    have eL : pySplitlines (a :: v') = (a :: l) :: ls := by
      rw [splitlines_cons_content a v' ha', hcons]
    rcases ih with hd | ⟨ms, m, h1, h2⟩
    · have eR : pySplitlines ((a :: v') ++ [b]) = (a :: l) :: (ls ++ [[b]]) := by
        rw [List.cons_append, splitlines_cons_content a (v' ++ [b]) ha', hd, hcons]
        rfl
      refine .inl ?_
      rw [eR, eL]
      rfl
    · rw [hcons] at h1
      cases ms with
      | nil =>
        have hm : l = m ∧ ls = [] := by simpa using h1
        obtain ⟨rfl, rfl⟩ := hm
        have eR : pySplitlines ((a :: v') ++ [b]) = [(a :: l) ++ [b]] := by
          rw [List.cons_append, splitlines_cons_content a (v' ++ [b]) ha', h2]
          rfl
        exact .inr ⟨[], a :: l, by rw [eL]; rfl, by rw [eR]; rfl⟩
      | cons q qs =>
        have hq : l = q ∧ ls = qs ++ [m] := by simpa using h1
        obtain ⟨rfl, rfl⟩ := hq
        have eR : pySplitlines ((a :: v') ++ [b]) = (a :: l) :: (qs ++ [m ++ [b]]) := by
          rw [List.cons_append, splitlines_cons_content a (v' ++ [b]) ha', h2]
          rfl
        refine .inr ⟨(a :: l) :: qs, m, ?_, ?_⟩
        · rw [eL]
          rfl
        · rw [eR]
          rfl

/-! ### `linesOK` is stable under stripping whitespace at either end -/

theorem linesOK_tail_sp (c : Nat) (rest : Str) (hc : pyIsSpace c = true)
    (h : linesOK (c :: rest) = true) : linesOK rest = true := by
  by_cases hlb : isLB c = true
  · by_cases hp : c = 13 ∧ ∃ r2, rest = 10 :: r2
    · obtain ⟨rfl, r2, rfl⟩ := hp
      have e1 : pySplitlines (13 :: 10 :: r2) = [] :: pySplitlines r2 := rfl
      have e2 : pySplitlines (10 :: r2) = [] :: pySplitlines r2 :=
        splitlines_cons_LB 10 r2 (by decide) (by rintro ⟨h13, _⟩; cases h13)
      unfold linesOK at h ⊢
      rw [e1] at h
      rw [e2]
      exact h
    · unfold linesOK at h ⊢
      rw [splitlines_cons_LB c rest hlb hp] at h
      simp only [List.all_cons, Bool.and_eq_true] at h
      exact h.2
  · have hlb' : isLB c = false := by simpa using hlb
    unfold linesOK at h ⊢
    rw [splitlines_cons_content c rest hlb'] at h
    cases hls : pySplitlines rest with
    | nil => simp [hls]
    | cons m ms =>
      rw [hls] at h
      simp only [List.all_cons, Bool.and_eq_true] at h ⊢
      refine ⟨?_, h.2⟩
      rw [← catMatch_cons_sp c m hc]
      exact h.1

theorem linesOK_dropWhile (s : Str) (h : linesOK s = true) :
    linesOK (s.dropWhile pyIsSpace) = true := by
  induction s with
  | nil => exact h
  | cons c rest ih =>
    rw [List.dropWhile_cons]
    by_cases hc : pyIsSpace c = true
    · rw [if_pos hc]
      exact ih (linesOK_tail_sp c rest hc h)
    · rw [if_neg hc]
      exact h

theorem linesOK_append_sp (v : Str) (c : Nat) (hc : pyIsSpace c = true)
    (hnc : noCRLF (v ++ [c]) = true) (h : linesOK (v ++ [c]) = true) :
    linesOK v = true := by
  by_cases hlb : isLB c = true
  · rcases splitlines_append_LB c hlb v hnc with hd | hd
    · unfold linesOK at h ⊢
      rw [hd] at h
      exact h
    · unfold linesOK at h ⊢
      rw [hd, List.all_append] at h
      simp only [Bool.and_eq_true] at h
      exact h.1
  · have hlb' : isLB c = false := by simpa using hlb
    rcases splitlines_append_content c hlb' v with hd | ⟨ls, l, h1, h2⟩
    · unfold linesOK at h ⊢
      rw [hd, List.all_append] at h
      simp only [Bool.and_eq_true] at h
      exact h.1
    · unfold linesOK at h ⊢
      rw [h2, List.all_append] at h
      simp only [Bool.and_eq_true] at h
      obtain ⟨hls, hlast⟩ := h
      rw [h1, List.all_append]
      simp only [Bool.and_eq_true]
      refine ⟨hls, ?_⟩
      simp only [List.all_cons, List.all_nil, Bool.and_true] at hlast ⊢
      rw [← catMatch_append_sp l c hc]
      exact hlast

theorem linesOK_strip_spaces_right (u : Str) :
    ∀ v : Str, u.all pyIsSpace = true → noCRLF (v ++ u) = true →
      linesOK (v ++ u) = true → linesOK v = true := by
  induction u using List.reverseRecOn with
  | nil =>
    intro v _ _ h
    rwa [List.append_nil] at h
  | append_singleton u' c ih =>
    intro v hall hnc h
    rw [List.all_append] at hall
    simp only [Bool.and_eq_true] at hall
    obtain ⟨hu', hcsp⟩ := hall
    simp only [List.all_cons, List.all_nil, Bool.and_true] at hcsp
    rw [← List.append_assoc] at hnc h
    have h1 : linesOK (v ++ u') = true :=
      linesOK_append_sp (v ++ u') c hcsp hnc h
    exact ih v hu' (noCRLF_pre _ _ hnc) h1

/-! ### Stripping: structure of `str.strip` -/

theorem rstripSp_cons (c : Nat) (rest : Str) :
    rstripSp (c :: rest) =
      if ((rstripSp rest).isEmpty && pyIsSpace c) = true then []
      else c :: rstripSp rest := rfl

theorem rstripSp_spec (s : Str) :
    ∃ u, s = rstripSp s ++ u ∧ u.all pyIsSpace = true := by
  induction s with
  | nil => exact ⟨[], rfl, rfl⟩
  | cons c rest ih =>
    obtain ⟨u, hu, hall⟩ := ih
    by_cases hb : ((rstripSp rest).isEmpty && pyIsSpace c) = true
    · refine ⟨c :: rest, ?_, ?_⟩
      · rw [rstripSp_cons, if_pos hb, List.nil_append]
      · simp only [Bool.and_eq_true] at hb
        have hrnil : rstripSp rest = [] := by
          simpa [List.isEmpty_iff] using hb.1
        rw [hrnil, List.nil_append] at hu
        simp only [List.all_cons, Bool.and_eq_true]
        exact ⟨hb.2, by rw [hu]; exact hall⟩
    · refine ⟨u, ?_, hall⟩
      rw [rstripSp_cons, if_neg hb, List.cons_append, ← hu]

theorem rstripSp_getLast_not_sp (s : Str) :
    ∀ c, (rstripSp s).getLast? = some c → pyIsSpace c = false := by
  induction s with
  | nil => intro c h; cases h
  | cons a rest ih =>
    intro c h
    by_cases hb : ((rstripSp rest).isEmpty && pyIsSpace a) = true
    · rw [rstripSp_cons, if_pos hb] at h
      cases h
    · rw [rstripSp_cons, if_neg hb] at h
      cases hr : rstripSp rest with
      | nil =>
        rw [hr] at h
        have hac : a = c := by simpa using h
        have hba : pyIsSpace a = false := by
          rw [hr] at hb
          simpa using hb
        rw [← hac]
        exact hba
      | cons x xs =>
        rw [hr, List.getLast?_cons_cons, ← hr] at h
        exact ih c h

theorem rstripSp_eq_self (s : Str)
    (hl : ∀ c, s.getLast? = some c → pyIsSpace c = false) :
    rstripSp s = s := by
  induction s with
  | nil => rfl
  | cons a rest ih =>
    cases rest with
    | nil =>
      have ha := hl a rfl
      rw [rstripSp_cons]
      simp only [show rstripSp ([] : Str) = [] from rfl, List.isEmpty_nil, ha,
        Bool.and_false, Bool.true_and, Bool.false_eq_true, if_false]
    | cons x xs =>
      have hrest : rstripSp (x :: xs) = x :: xs := by
        refine ih ?_
        intro c hc
        refine hl c ?_
        rw [List.getLast?_cons_cons]
        exact hc
      rw [rstripSp_cons, hrest, if_neg (by simp)]

theorem dropWhile_head_not (p : Nat → Bool) :
    ∀ (s : Str) (c : Nat) (t : Str), s.dropWhile p = c :: t → p c = false := by
  intro s
  induction s with
  | nil => intro c t h; cases h
  | cons a rest ih =>
    intro c t h
    rw [List.dropWhile_cons] at h
    by_cases ha : p a = true
    · rw [if_pos ha] at h
      exact ih c t h
    · rw [if_neg ha] at h
      injection h with h1 _
      subst h1
      simpa using ha

theorem rstripSp_head (s : Str) :
    rstripSp s = [] ∨ s.head? = (rstripSp s).head? := by
  cases s with
  | nil => exact .inl rfl
  | cons a rest =>
    by_cases hb : ((rstripSp rest).isEmpty && pyIsSpace a) = true
    · exact .inl (by rw [rstripSp_cons, if_pos hb])
    · refine .inr ?_
      rw [rstripSp_cons, if_neg hb]
      rfl

/-- `str.strip` is idempotent. -/
theorem pyStrip_idem (s : Str) : pyStrip (pyStrip s) = pyStrip s := by
  unfold pyStrip
  have hdw : (rstripSp (s.dropWhile pyIsSpace)).dropWhile pyIsSpace =
      rstripSp (s.dropWhile pyIsSpace) := by
    cases hr : rstripSp (s.dropWhile pyIsSpace) with
    | nil => rfl
    | cons c t =>
      rcases rstripSp_head (s.dropWhile pyIsSpace) with hh | hh
      · rw [hh] at hr
        cases hr
      · rw [hr] at hh
        have : ∃ t2, s.dropWhile pyIsSpace = c :: t2 := by
          cases hd : s.dropWhile pyIsSpace with
          | nil => rw [hd] at hh; cases hh
          | cons x xs =>
            rw [hd] at hh
            simp only [List.head?_cons, Option.some.injEq] at hh
            exact ⟨xs, by rw [hh]⟩
        obtain ⟨t2, ht2⟩ := this
        have hc : pyIsSpace c = false := dropWhile_head_not pyIsSpace s c t2 ht2
        rw [List.dropWhile_cons, if_neg (by simp [hc])]
  rw [hdw]
  exact rstripSp_eq_self _ (rstripSp_getLast_not_sp (s.dropWhile pyIsSpace))

theorem stripTrailB_spec (t : Str) :
    ∃ u, t = stripTrailB t ++ u ∧
      (u = [] ∨ ∃ b, u = [b] ∧ isLB b = true) := by
  induction t with
  | nil => exact ⟨[], rfl, .inl rfl⟩
  | cons c rest ih =>
    cases hr : rest with
    | nil =>
      by_cases hc : isLB c = true
      · refine ⟨[c], ?_, .inr ⟨c, rfl, hc⟩⟩
        show c :: [] = stripTrailB [c] ++ [c]
        unfold stripTrailB
        rw [if_pos hc]
        rfl
      · refine ⟨[], ?_, .inl rfl⟩
        show c :: [] = stripTrailB [c] ++ []
        unfold stripTrailB
        rw [if_neg hc]
        rfl
    | cons x xs =>
      rw [← hr]
      obtain ⟨u, hu, hcase⟩ := ih
      refine ⟨u, ?_, hcase⟩
      rw [stripTrailB_cons_ne c rest (by rw [hr]; simp), List.cons_append, ← hu]

/-! ### `noDblWs` transfer lemmas -/

theorem noDbl_cons_pair (a b : Nat) (r : Str)
    (h : noDblWs (a :: b :: r) = true) :
    (pyIsSpace a && pyIsSpace b) = false ∧ noDblWs (b :: r) = true := by
  have he : noDblWs (a :: b :: r) =
      (!(pyIsSpace a && pyIsSpace b) && noDblWs (b :: r)) := rfl
  rw [he] at h
  simp only [Bool.and_eq_true, Bool.not_eq_true'] at h
  exact h

theorem noDbl_tail (c : Nat) (rest : Str) (h : noDblWs (c :: rest) = true) :
    noDblWs rest = true := by
  cases rest with
  | nil => rfl
  | cons b r => exact (noDbl_cons_pair c b r h).2

theorem noDbl_suffix (v u : Str) (h : noDblWs (v ++ u) = true) :
    noDblWs u = true := by
  induction v with
  | nil => exact h
  | cons a v' ih => exact ih (noDbl_tail a (v' ++ u) h)

theorem noDbl_pre (v u : Str) (h : noDblWs (v ++ u) = true) :
    noDblWs v = true := by
  induction v with
  | nil => rfl
  | cons a v' ih =>
    cases v' with
    | nil => rfl
    | cons b v'' =>
      have hp := noDbl_cons_pair a b (v'' ++ u) h
      have he : noDblWs (a :: b :: v'') =
          (!(pyIsSpace a && pyIsSpace b) && noDblWs (b :: v'')) := rfl
      rw [he, hp.1]
      simp only [Bool.not_false, Bool.true_and]
      exact ih hp.2

theorem noDbl_dropWhile (s : Str) (p : Nat → Bool) (h : noDblWs s = true) :
    noDblWs (s.dropWhile p) = true := by
  induction s with
  | nil => exact h
  | cons c rest ih =>
    rw [List.dropWhile_cons]
    split
    · exact ih (noDbl_tail c rest h)
    · exact h

theorem noDbl_map_mapBf (s : Str) (h : noDblWs s = true) :
    noDblWs (s.map mapBf) = true := by
  induction s with
  | nil => rfl
  | cons a rest ih =>
    cases rest with
    | nil => rfl
    | cons b r =>
      have hp := noDbl_cons_pair a b r h
      have he : noDblWs (mapBf a :: mapBf b :: r.map mapBf) =
          (!(pyIsSpace (mapBf a) && pyIsSpace (mapBf b)) &&
            noDblWs (mapBf b :: r.map mapBf)) := rfl
      show noDblWs (mapBf a :: mapBf b :: r.map mapBf) = true
      rw [he, sp_mapBf a, sp_mapBf b, hp.1]
      simp only [Bool.not_false, Bool.true_and]
      exact ih hp.2

theorem noCRLF_of_noDbl (s : Str) (h : noDblWs s = true) : noCRLF s = true := by
  induction s with
  | nil => rfl
  | cons a rest ih =>
    have hp : ¬(a = 13 ∧ ∃ r, rest = 10 :: r) := by
      rintro ⟨rfl, r, rfl⟩
      have := (noDbl_cons_pair 13 10 r h).1
      simp [pyIsSpace] at this
    rw [noCRLF_cons_eq a rest hp]
    exact ih (noDbl_tail a rest h)

/-! ### Substring (`in`) transfer lemmas -/

theorem containsSub_nil_pat (s : Str) : containsSub [] s = true := by
  cases s with
  | nil => rfl
  | cons c rest => simp [containsSub, List.isPrefixOf]

theorem isPrefixOf_append (l u v : Str) (h : l.isPrefixOf u = true) :
    l.isPrefixOf (u ++ v) = true := by
  rw [List.isPrefixOf_iff_prefix] at h ⊢
  exact h.trans (List.prefix_append u v)

theorem containsSub_append_right (pat u v : Str)
    (h : containsSub pat u = true) : containsSub pat (u ++ v) = true := by
  induction u with
  | nil =>
    have : pat = [] := by simpa [containsSub, List.isEmpty_iff] using h
    rw [this]
    exact containsSub_nil_pat _
  | cons a u' ih =>
    simp only [containsSub, Bool.or_eq_true] at h
    simp only [List.cons_append, containsSub, Bool.or_eq_true]
    rcases h with h | h
    · exact .inl (by
        have := isPrefixOf_append pat (a :: u') v h
        simpa using this)
    · exact .inr (ih h)

theorem containsSub_in_suffix (pat u v : Str)
    (h : containsSub pat v = true) : containsSub pat (u ++ v) = true := by
  induction u with
  | nil => exact h
  | cons a u' ih =>
    simp only [List.cons_append, containsSub, Bool.or_eq_true]
    exact .inr ih

theorem isPrefixOf_map_preimage (pat : Str) (hp : pat.all (fun c => !(c == 10)) = true) :
    ∀ s : Str, pat.isPrefixOf (s.map mapBf) = true → pat.isPrefixOf s = true := by
  induction pat with
  | nil => intro s _; cases s <;> rfl
  | cons p0 pat' ih =>
    intro s h
    cases s with
    | nil => cases h
    | cons a rest =>
      simp only [List.all_cons, Bool.and_eq_true, Bool.not_eq_true',
        beq_eq_false_iff_ne, ne_eq] at hp
      have hsp : (p0 == mapBf a) = true ∧ pat'.isPrefixOf (rest.map mapBf) = true := by
        simpa [List.isPrefixOf] using h
      have hpa : p0 = mapBf a := by simpa using hsp.1
      have hfa : mapBf a = a := by
        by_cases hla : isLB a = true
        · exfalso
          apply hp.1
          rw [hpa]
          simp [mapBf, hla]
        · simp [mapBf, hla]
      simp only [List.isPrefixOf, Bool.and_eq_true]
      exact ⟨by simp [hpa, hfa], ih hp.2 rest hsp.2⟩

theorem containsSub_map_preimage (pat : Str)
    (hp : pat.all (fun c => !(c == 10)) = true) :
    ∀ s : Str, containsSub pat (s.map mapBf) = true → containsSub pat s = true := by
  intro s
  induction s with
  | nil => intro h; exact h
  | cons a rest ih =>
    intro h
    simp only [List.map_cons, containsSub, Bool.or_eq_true] at h
    simp only [containsSub, Bool.or_eq_true]
    rcases h with h | h
    · refine .inl ?_
      have := isPrefixOf_map_preimage pat hp (a :: rest) (by simpa using h)
      exact this
    · exact .inr (ih h)

theorem mapBf_idem (a : Nat) : mapBf (mapBf a) = mapBf a := by
  unfold mapBf
  split
  · rfl
  · rfl

/-! ### Identity of the cleaning stages on marker-free text -/

theorem foldl_pySub_id (l : List RE) :
    ∀ s : Str, (∀ p ∈ l, hasMatch p false s = false) →
      l.foldl (fun t p => pySub p false [] t) s = s := by
  induction l with
  | nil => intro s _; rfl
  | cons p ps ih =>
    intro s h
    have h1 : pySub p false [] s = s :=
      pySub_no_match p false [] s (h p (List.mem_cons_self _ _))
    rw [List.foldl_cons, h1]
    exact ih s (fun q hq => h q (List.mem_cons_of_mem _ hq))

theorem removeStage_id (s : Str)
    (h : ∀ p ∈ patternsToRemove, hasMatch p false s = false) :
    removeStage s = s :=
  foldl_pySub_id patternsToRemove s h

theorem foldl_split_id (l : List Str) :
    ∀ s : Str, (∀ pt ∈ l, containsSub pt s = false) →
      l.foldl (fun t pt => if containsSub pt t then takeUntilSub pt t else t) s = s := by
  induction l with
  | nil => intro s _; rfl
  | cons pt ps ih =>
    intro s h
    rw [List.foldl_cons, if_neg (by rw [h pt (List.mem_cons_self _ _)]; simp)]
    exact ih s (fun q hq => h q (List.mem_cons_of_mem _ hq))

theorem splitStage_id (s : Str)
    (h : ∀ pt ∈ splitPoints, containsSub pt s = false) :
    splitStage s = s :=
  foldl_split_id splitPoints s h

theorem catFilter_id (lines : List Str)
    (h : ∀ l ∈ lines, catMatch l = false) :
    catFilterGo lines false = lines := by
  induction lines with
  | nil => rfl
  | cons line rest ih =>
    have hline := h line (List.mem_cons_self _ _)
    show (let skip1 := false || catMatch line
          let skip2 := if skip1 && (pyStrip line).length > 30 then false else skip1
          (if skip1 then [] else [line]) ++ catFilterGo rest skip2) = line :: rest
    simp only [hline, Bool.false_or, Bool.false_and, if_false, Bool.false_eq_true,
      List.singleton_append]
    rw [ih (fun q hq => h q (List.mem_cons_of_mem _ hq))]

theorem catStage_eq (s : Str) (hok : linesOK s = true) (hnc : noCRLF s = true) :
    catStage s = stripTrailB (s.map mapBf) := by
  unfold catStage
  rw [catFilter_id (pySplitlines s) ?_]
  · exact joinNL_splitlines s hnc
  · intro l hl
    have := (List.all_eq_true.mp hok) l hl
    simpa using this

theorem mlens_reSP2_single (c : Nat) : reSP2.mlens [c] = [] := by
  by_cases h : pyIsSpace c = true <;>
    simp [reSP2, rcat, RE.mlens, runLen, h]

theorem mlens_reSP2_pair (a b : Nat) (r : Str)
    (hab : (pyIsSpace a && pyIsSpace b) = false) :
    reSP2.mlens (a :: b :: r) = [] := by
  by_cases ha : pyIsSpace a = true
  · have hb : pyIsSpace b = false := by
      rcases Bool.and_eq_false_iff.mp hab with h | h
      · rw [ha] at h; cases h
      · exact h
    simp [reSP2, rcat, RE.mlens, runLen, ha, hb]
  · simp [reSP2, rcat, RE.mlens, runLen, ha]

theorem noDbl_no_reSP2 (s : Str) (h : noDblWs s = true) :
    hasMatch reSP2 false s = false := by
  unfold hasMatch
  induction s with
  | nil => rfl
  | cons c rest ih =>
    have hrec := ih (noDbl_tail c rest h)
    have hstep : hasMatchGo reSP2 false false (c :: rest) =
        (((!false || !false) && !((reSP2.mlens (c :: rest)).isEmpty)) ||
          hasMatchGo reSP2 false (pyIsWord c) rest) := rfl
    rw [hstep, hmg_indep reSP2 rest (pyIsWord c) false, hrec, Bool.or_false]
    cases rest with
    | nil =>
      rw [mlens_reSP2_single c]
      rfl
    | cons b r =>
      rw [mlens_reSP2_pair c b r (noDbl_cons_pair c b r h).1]
      rfl

theorem mlens_reNL3_single (c : Nat) : reNL3.mlens [c] = [] := by
  by_cases h : c = 10
  · subst h
    simp [reNL3, rcat, RE.mlens, runLen]
  · simp [reNL3, rcat, RE.mlens, runLen, h]

theorem mlens_reNL3_pair (a b : Nat) (r : Str)
    (hab : (pyIsSpace a && pyIsSpace b) = false) :
    reNL3.mlens (a :: b :: r) = [] := by
  by_cases ha : a = 10
  · subst ha
    have hb : b ≠ 10 := by
      intro hb
      subst hb
      simp [pyIsSpace] at hab
    simp [reNL3, rcat, RE.mlens, runLen, hb]
  · simp [reNL3, rcat, RE.mlens, runLen, ha]

theorem noDbl_no_reNL3 (s : Str) (h : noDblWs s = true) :
    hasMatch reNL3 false s = false := by
  unfold hasMatch
  induction s with
  | nil => rfl
  | cons c rest ih =>
    have hrec := ih (noDbl_tail c rest h)
    have hstep : hasMatchGo reNL3 false false (c :: rest) =
        (((!false || !false) && !((reNL3.mlens (c :: rest)).isEmpty)) ||
          hasMatchGo reNL3 false (pyIsWord c) rest) := rfl
    rw [hstep, hmg_indep reNL3 rest (pyIsWord c) false, hrec, Bool.or_false]
    cases rest with
    | nil =>
      rw [mlens_reNL3_single c]
      rfl
    | cons b r =>
      rw [mlens_reNL3_pair c b r (noDbl_cons_pair c b r h).1]
      rfl

theorem wsStage_id (t : Str) (h : noDblWs t = true) : wsStage t = t := by
  unfold wsStage
  rw [pySub_no_match reNL3 false [10, 10] t (noDbl_no_reNL3 t h),
    pySub_no_match reSP2 false [32] t (noDbl_no_reSP2 t h)]

theorem urlStage_id (t : Str) (h : hasMatch reURL false t = false) :
    urlStage t = t :=
  pySub_no_match reURL false [] t h

theorem hasMatch_prefix_false (r : RE) (t u : Str)
    (h : hasMatch r false (t ++ u) = false) : hasMatch r false t = false :=
  hasMatch_infix_false r [] t u h

theorem stripTrailB_eq_self (t : Str)
    (h : ∀ c, t.getLast? = some c → isLB c = false) : stripTrailB t = t := by
  induction t with
  | nil => rfl
  | cons c rest ih =>
    cases rest with
    | nil =>
      have hc := h c rfl
      show stripTrailB [c] = [c]
      unfold stripTrailB
      rw [if_neg (by simp [hc])]
    | cons x xs =>
      rw [stripTrailB_cons_ne c (x :: xs) (by simp)]
      congr 1
      refine ih ?_
      intro d hd
      refine h d ?_
      rw [List.getLast?_cons_cons]
      exact hd

theorem map_fixed_id (l : Str) (h : ∀ c ∈ l, mapBf c = c) :
    l.map mapBf = l := by
  induction l with
  | nil => rfl
  | cons a t ih =>
    simp only [List.map_cons]
    rw [h a (List.mem_cons_self _ _), ih (fun c hc => h c (List.mem_cons_of_mem a hc))]

/-- The sentinel is a fixed point of `clean_text` at every threshold. -/
theorem clean_text_sentinel (minLen : Nat) :
    clean_text sentinel minLen = sentinel := by
  unfold clean_text
  rw [if_neg (by decide)]
  rw [show catStage (splitStage (removeStage sentinel)) = sentinel from by decide]
  split
  · rfl
  · decide

/-- C9 amended: `clean_text` is idempotent on marker-free input that also
contains no URL and no run of two or more consecutive whitespace
characters.  (Whitespace collapsing can otherwise create a split-point
marker out of a doubly-spaced phrase, and URL removal can reopen
whitespace runs or shrink the text, both of which break idempotence.) -/
theorem C9_amended_idempotent (s : Str) (minLen : Nat)
    (hm : markerFree s = true) (hd : noDblWs s = true)
    (hu : hasMatch reURL false s = false) :
    clean_text (clean_text s minLen) minLen = clean_text s minLen := by
  have hm' := hm
  unfold markerFree at hm'
  simp only [Bool.and_eq_true, List.all_eq_true, Bool.not_eq_true'] at hm'
  obtain ⟨⟨hrem, hsplit⟩, hlines⟩ := hm'
  by_cases hne : s.isEmpty = true
  · have hs : s = [] := by simpa [List.isEmpty_iff] using hne
    subst hs
    rfl
  · have hne' : s.isEmpty = false := by simpa using hne
    have hnc : noCRLF s = true := noCRLF_of_noDbl s hd
    have h1 : removeStage s = s := removeStage_id s hrem
    have h2 : splitStage s = s := splitStage_id s hsplit
    have h3 : catStage s = stripTrailB (s.map mapBf) := catStage_eq s hlines hnc
    have hsBnd : noDblWs (s.map mapBf) = true := noDbl_map_mapBf s hd
    obtain ⟨u2, hu2, hu2c⟩ := stripTrailB_spec (s.map mapBf)
    have ht3nd : noDblWs (stripTrailB (s.map mapBf)) = true := by
      refine noDbl_pre _ u2 ?_
      rw [← hu2]
      exact hsBnd
    have hremB : ∀ p ∈ patternsToRemove, hasMatch p false (s.map mapBf) = false := by
      intro p hp
      have hall : patternsToRemove.all RE.goodB = true := by decide
      have hg : RE.goodB p = true := List.all_eq_true.mp hall p hp
      show hasMatchGo p false false (s.map mapBf) = false
      rw [hasMatch_map_mapBf p hg s false false]
      exact hrem p hp
    have huB : hasMatch reURL false (s.map mapBf) = false := by
      show hasMatchGo reURL false false (s.map mapBf) = false
      rw [hasMatch_map_mapBf reURL (by decide) s false false]
      exact hu
    have hremT : ∀ p ∈ patternsToRemove,
        hasMatch p false (stripTrailB (s.map mapBf)) = false := by
      intro p hp
      refine hasMatch_prefix_false p _ u2 ?_
      rw [← hu2]
      exact hremB p hp
    have huT : hasMatch reURL false (stripTrailB (s.map mapBf)) = false := by
      refine hasMatch_prefix_false reURL _ u2 ?_
      rw [← hu2]
      exact huB
    have hten : splitPoints.all (fun pt => pt.all (fun c => !(c == 10))) = true := by
      decide
    have hsplitB : ∀ pt ∈ splitPoints, containsSub pt (s.map mapBf) = false := by
      intro pt hp
      by_contra hc
      rw [Bool.not_eq_false] at hc
      have h10 := List.all_eq_true.mp hten pt hp
      have := containsSub_map_preimage pt h10 s hc
      rw [hsplit pt hp] at this
      cases this
    have hsplitT : ∀ pt ∈ splitPoints,
        containsSub pt (stripTrailB (s.map mapBf)) = false := by
      intro pt hp
      by_contra hc
      rw [Bool.not_eq_false] at hc
      have := containsSub_append_right pt _ u2 hc
      rw [← hu2, hsplitB pt hp] at this
      cases this
    have hlinesB : linesOK (s.map mapBf) = true := by
      unfold linesOK
      rw [splitlines_map_mapBf s hnc]
      exact hlines
    have hlinesT : linesOK (stripTrailB (s.map mapBf)) = true := by
      rcases hu2c with rfl | ⟨b, rfl, hb⟩
      · rw [List.append_nil] at hu2
        rw [← hu2]
        exact hlinesB
      · refine linesOK_append_sp _ b (lb_subset_sp b hb) ?_ ?_
        · rw [← hu2]
          exact noCRLF_of_noDbl _ hsBnd
        · rw [← hu2]
          exact hlinesB
    -- the stripped result y
    obtain ⟨u3, hu3, hu3sp⟩ :=
      rstripSp_spec ((stripTrailB (s.map mapBf)).dropWhile pyIsSpace)
    have hdWnd : noDblWs ((stripTrailB (s.map mapBf)).dropWhile pyIsSpace) = true :=
      noDbl_dropWhile _ pyIsSpace ht3nd
    have htw : stripTrailB (s.map mapBf) =
        (stripTrailB (s.map mapBf)).takeWhile pyIsSpace ++
        (stripTrailB (s.map mapBf)).dropWhile pyIsSpace :=
      (List.takeWhile_append_dropWhile _ _).symm
    have hyd : noDblWs (pyStrip (stripTrailB (s.map mapBf))) = true := by
      refine noDbl_pre _ u3 ?_
      unfold pyStrip
      rw [← hu3]
      exact hdWnd
    have ht3y : stripTrailB (s.map mapBf) =
        (stripTrailB (s.map mapBf)).takeWhile pyIsSpace ++
        (pyStrip (stripTrailB (s.map mapBf)) ++ u3) := by
      unfold pyStrip
      rw [← hu3]
      exact htw
    have hremY : ∀ p ∈ patternsToRemove,
        hasMatch p false (pyStrip (stripTrailB (s.map mapBf))) = false := by
      intro p hp
      refine hasMatch_infix_false p
        ((stripTrailB (s.map mapBf)).takeWhile pyIsSpace) _ u3 ?_
      rw [← List.append_assoc] at ht3y
      rw [← ht3y]
      exact hremT p hp
    have huY : hasMatch reURL false (pyStrip (stripTrailB (s.map mapBf))) = false := by
      refine hasMatch_infix_false reURL
        ((stripTrailB (s.map mapBf)).takeWhile pyIsSpace) _ u3 ?_
      rw [← List.append_assoc] at ht3y
      rw [← ht3y]
      exact huT
    have hsplitY : ∀ pt ∈ splitPoints,
        containsSub pt (pyStrip (stripTrailB (s.map mapBf))) = false := by
      intro pt hp
      by_contra hc
      rw [Bool.not_eq_false] at hc
      have s1 := containsSub_append_right pt _ u3 hc
      have s2 := containsSub_in_suffix pt
        ((stripTrailB (s.map mapBf)).takeWhile pyIsSpace) _ s1
      rw [← ht3y] at s2
      rw [hsplitT pt hp] at s2
      cases s2
    have hlinesY : linesOK (pyStrip (stripTrailB (s.map mapBf))) = true := by
      have hdWl : linesOK ((stripTrailB (s.map mapBf)).dropWhile pyIsSpace) = true :=
        linesOK_dropWhile _ hlinesT
      refine linesOK_strip_spaces_right u3 _ hu3sp ?_ ?_
      · unfold pyStrip
        rw [← hu3]
        exact noCRLF_of_noDbl _ hdWnd
      · unfold pyStrip
        rw [← hu3]
        exact hdWl
    have hmemY : ∀ c ∈ pyStrip (stripTrailB (s.map mapBf)), mapBf c = c := by
      intro c hc
      have m1 : c ∈ (stripTrailB (s.map mapBf)).dropWhile pyIsSpace := by
        rw [hu3]
        exact List.mem_append_left _ hc
      have m2 : c ∈ stripTrailB (s.map mapBf) := by
        rw [htw]
        exact List.mem_append_right _ m1
      have m3 : c ∈ s.map mapBf := by
        rw [hu2]
        exact List.mem_append_left _ m2
      obtain ⟨a, _, rfl⟩ := List.mem_map.mp m3
      exact mapBf_idem a
    have hmapY : (pyStrip (stripTrailB (s.map mapBf))).map mapBf =
        pyStrip (stripTrailB (s.map mapBf)) := map_fixed_id _ hmemY
    have hylast : ∀ c, (pyStrip (stripTrailB (s.map mapBf))).getLast? = some c →
        isLB c = false := by
      intro c hc
      have hsp := rstripSp_getLast_not_sp _ c hc
      by_cases hlb : isLB c = true
      · rw [lb_subset_sp c hlb] at hsp
        cases hsp
      · simpa using hlb
    have hstripY : pyStrip (pyStrip (stripTrailB (s.map mapBf))) =
        pyStrip (stripTrailB (s.map mapBf)) := pyStrip_idem _
    -- evaluate the first application
    have hclean1 : clean_text s minLen =
        (if ((stripTrailB (s.map mapBf)).isEmpty ||
            decide ((pyStrip (stripTrailB (s.map mapBf))).length < minLen)) = true
         then sentinel
         else pyStrip (urlStage (wsStage (stripTrailB (s.map mapBf))))) := by
      unfold clean_text
      rw [if_neg (by simp [hne']), h1, h2, h3]
    by_cases hcond : ((stripTrailB (s.map mapBf)).isEmpty ||
        decide ((pyStrip (stripTrailB (s.map mapBf))).length < minLen)) = true
    · rw [hclean1, if_pos hcond]
      exact clean_text_sentinel minLen
    · have hws : wsStage (stripTrailB (s.map mapBf)) = stripTrailB (s.map mapBf) :=
        wsStage_id _ ht3nd
      have hurl : urlStage (stripTrailB (s.map mapBf)) = stripTrailB (s.map mapBf) :=
        urlStage_id _ huT
      have hcy : clean_text s minLen = pyStrip (stripTrailB (s.map mapBf)) := by
        rw [hclean1, if_neg hcond, hws, hurl]
      rw [hcy]
      -- length information from the failed condition
      simp only [Bool.or_eq_true, decide_eq_true_eq, not_or] at hcond
      obtain ⟨ht3ne, hlen⟩ := hcond
      by_cases hye : (pyStrip (stripTrailB (s.map mapBf))).isEmpty = true
      · have : pyStrip (stripTrailB (s.map mapBf)) = [] := by
          simpa [List.isEmpty_iff] using hye
        rw [this]
        rfl
      · -- second application on y
        have hyne : (pyStrip (stripTrailB (s.map mapBf))).isEmpty = false := by
          simpa using hye
        have hyr : removeStage (pyStrip (stripTrailB (s.map mapBf))) =
            pyStrip (stripTrailB (s.map mapBf)) := removeStage_id _ hremY
        have hysp : splitStage (pyStrip (stripTrailB (s.map mapBf))) =
            pyStrip (stripTrailB (s.map mapBf)) := splitStage_id _ hsplitY
        have hycat : catStage (pyStrip (stripTrailB (s.map mapBf))) =
            pyStrip (stripTrailB (s.map mapBf)) := by
          rw [catStage_eq _ hlinesY (noCRLF_of_noDbl _ hyd), hmapY]
          exact stripTrailB_eq_self _ hylast
        unfold clean_text
        rw [if_neg (by simp [hyne]), hyr, hysp, hycat]
        rw [if_neg ?_]
        · rw [wsStage_id _ hyd, urlStage_id _ huY]
          exact hstripY
        · simp only [Bool.or_eq_true, decide_eq_true_eq, not_or]
          refine ⟨by simp [hyne], ?_⟩
          rw [hstripY]
          exact hlen

/-- Witness for C9 amended at a marker-free single-spaced input. -/
theorem C9_amended_witness :
    clean_text (clean_text (str "hola che boludo como andas querido") 10) 10 =
      clean_text (str "hola che boludo como andas querido") 10 :=
  C9_amended_idempotent (str "hola che boludo como andas querido") 10
    (by decide) (by decide) (by decide)

end Boludo
